import Mathlib

/-!
Verification of the Arabiasanctions screening core.

This file gives a shallow embedding of the screening engine found in
`backend/app/engine/normalizer.py`, `backend/app/engine/scorer.py` and
`backend/app/engine/matcher.py`, and proves or refutes the testable
properties of the specification against it.

Modelling conventions:
* Python `str` values are embedded as `List Char` (`Str` below).
* Python `float` scores are embedded as `ℚ`; the engine only ever adds,
  multiplies and compares score values, so rational arithmetic is a
  faithful model of the decision logic.
* Third-party string libraries used by the code (`unidecode`, `rapidfuzz`,
  `jellyfish`) are not part of the repository; the definitions standing in
  for them are marked `Modelled from the spec:` and follow the
  specification's description of the corresponding operation.
* Wall-clock fields (`processing_time_ms`, `timestamp`) and freshly drawn
  UUIDs are I/O effects; the embedding takes the reference / batch
  identifiers as parameters and omits the timing fields, which no claim
  mentions.
-/

namespace ArabiaSanctions

/-- Python strings are modelled as lists of characters. -/
abbrev Str := List Char

/-- Python `\s` for the ASCII range: the whitespace characters recognised by
`re.sub(r"\s+", ...)`, `str.strip()` and `str.split()` on the ASCII output of
`unidecode`. -/
def pySpace (c : Char) : Bool :=
  c = ' ' || c = '\t' || c = '\n' || c = '\r' ||
  c = Char.ofNat 11 || c = Char.ofNat 12 ||
  c = Char.ofNat 28 || c = Char.ofNat 29 || c = Char.ofNat 30 || c = Char.ofNat 31

/-- Python `str.lower` restricted to the ASCII range produced by `unidecode`
(`A`-`Z` is code points 65-90). -/
def pyLower (c : Char) : Char :=
  if 65 ≤ c.toNat ∧ c.toNat ≤ 90 then Char.ofNat (c.toNat + 32) else c

/-- Python `str.upper` on the ASCII range (used by `_check_id_match`;
`a`-`z` is code points 97-122). -/
def pyUpper (c : Char) : Char :=
  if 97 ≤ c.toNat ∧ c.toNat ≤ 122 then Char.ofNat (c.toNat - 32) else c

/-- Python `\w` on the ASCII output of `unidecode`: letters, digits,
underscore. -/
def isWordChar (c : Char) : Bool :=
  (97 ≤ c.toNat ∧ c.toNat ≤ 122) || (65 ≤ c.toNat ∧ c.toNat ≤ 90) ||
  (48 ≤ c.toNat ∧ c.toNat ≤ 57) || c = '_'

/-- Modelled from the spec: the `unidecode` library (an external dependency,
not in the repository) transliterates every character to an ASCII
approximation; it is the identity on ASCII, lossy but total elsewhere.  A few
representative non-ASCII mappings are enumerated; unknown characters map to
the empty string, as `unidecode` does for unmapped codepoints. -/
def unidecodeChar (c : Char) : Str :=
  if c.toNat < 128 then [c]
  else if c = 'é' ∨ c = 'è' ∨ c = 'ê' then ['e']
  else if c = 'á' ∨ c = 'à' ∨ c = 'â' then ['a']
  else if c = 'ü' ∨ c = 'ú' then ['u']
  else if c = 'ö' ∨ c = 'ó' then ['o']
  else if c = 'ç' then ['c']
  else if c = 'ñ' then ['n']
  else []

/-- The `unidecode` over a whole string. -/
def unidecode (s : Str) : Str := s.flatMap unidecodeChar

/-- One pass of `re.sub(r"\s+", " ", s)`: every maximal run of whitespace is
replaced by a single space. -/
def collapseWs : Str → Str
  | [] => []
  | [c] => if pySpace c then [' '] else [c]
  | c :: d :: rest =>
    if pySpace c && pySpace d then collapseWs (d :: rest)
    else (if pySpace c then ' ' else c) :: collapseWs (d :: rest)

/-- Python `str.strip()`: drop leading and trailing whitespace. -/
def pyStrip (s : Str) : Str :=
  ((s.dropWhile pySpace).reverse.dropWhile pySpace).reverse

/-- Worker for `pySplit`: `acc` holds the characters of the current field in
reverse order. -/
def pySplitAux : Str → Str → List Str
  | [], acc => if acc = [] then [] else [acc.reverse]
  | c :: rest, acc =>
    if pySpace c then
      if acc = [] then pySplitAux rest []
      else acc.reverse :: pySplitAux rest []
    else pySplitAux rest (c :: acc)

/-- Python `str.split()` (no argument): split on runs of whitespace,
discarding empty fields. -/
def pySplit (s : Str) : List Str := pySplitAux s []

/-- Python `" ".join(words)`. -/
def joinSpace : List Str → Str
  | [] => []
  | [t] => t
  | t :: ts => t ++ ' ' :: joinSpace ts

/-- The `NameNormalizer.PREFIXES` from `normalizer.py`. -/
def PREFIXES : List Str :=
  [['a','l'], ['e','l'], ['u','l'], ['b','i','n'], ['i','b','n'],
   ['b','i','n','t'], ['a','b','u'], ['u','m','m'],
   ['t','h','e'], ['a'], ['a','n']]

/-- The character classes admitted by `re.sub(r"[^\w\s\-]", "", ...)`. -/
def keepChar (c : Char) : Bool := isWordChar c || pySpace c || c = '-'

/-- Stages 1-5 of `NameNormalizer.normalize`: transliteration, lowercasing,
special-character removal, whitespace collapsing with trim, and
hyphen-to-space conversion. -/
def normPre (name : Str) : Str :=
  (pyStrip (collapseWs (((unidecode name).map pyLower).filter keepChar))).map
    (fun c => if c = '-' then ' ' else c)

/-- The prefix-removal step of `normalize`: drop the first
whitespace-delimited word when it is one of the fixed prefixes. -/
def dropLeadToken (ws : List Str) : List Str :=
  match ws with
  | [] => []
  | w :: ws2 => if w ∈ PREFIXES then ws2 else w :: ws2

/-- The `NameNormalizer.normalize` from `normalizer.py`: transliterate to ASCII,
lowercase, delete characters outside `\w`, whitespace and hyphen, collapse
whitespace, turn hyphens into spaces, optionally drop one leading prefix
token, and collapse whitespace again. -/
def normalize (name : Str) (keepPrefixes : Bool) : Str :=
  if name = [] then []
  else
    let s5 := normPre name
    let s6 :=
      if keepPrefixes then s5
      else joinSpace (dropLeadToken (pySplit s5))
    pyStrip (collapseWs s6)

/-- The `NameNormalizer.ARABIC_VARIATIONS` from `normalizer.py`: each standard
form paired with its enumerated variants, in source order. -/
def ARABIC_VARIATIONS : List (Str × List Str) :=
  [("mohammed".toList, ["mohammad".toList, "muhammed".toList, "muhammad".toList,
      "mohamed".toList, "mohamad".toList]),
   ("ahmed".toList, ["ahmad".toList, "ahmet".toList]),
   ("abdul".toList, ["abd".toList, "abdel".toList, "abdal".toList]),
   ("ali".toList, ["aly".toList]),
   ("hassan".toList, ["hasan".toList]),
   ("hussein".toList, ["hussain".toList, "husain".toList, "hossein".toList]),
   ("khalid".toList, ["khaled".toList]),
   ("omar".toList, ["umar".toList]),
   ("osman".toList, ["uthman".toList, "othman".toList]),
   ("saleh".toList, ["salih".toList, "salah".toList]),
   ("yousef".toList, ["yusuf".toList, "youssef".toList, "joseph".toList]),
   ("ibrahim".toList, ["ebrahim".toList, "abraham".toList])]

/-- The reverse lookup `_VARIATION_MAP`: a word maps to its standard form if
it is a standard form or one of its variants. -/
def variationMap (w : Str) : Option Str :=
  (ARABIC_VARIATIONS.find? (fun p => w = p.1 || w ∈ p.2)).map (·.1)

/-- The `NameNormalizer.normalize_for_matching`: normalize without prefixes,
standardise every word through the variation map, and join with no
separator. -/
def normalizeForMatching (name : Str) : Str :=
  ((pySplit (normalize name false)).map (fun w => (variationMap w).getD w)).flatten

/-- Add a string to the accumulated variation list unless already present:
the embedding of insertion into the Python `set` (the Python iteration order
of the set is irrelevant to every claim; first-insertion order is used). -/
def addVar (l : List Str) (s : Str) : List Str :=
  if s ∈ l then l else l ++ [s]

/-- The inner loop of `generate_variations`: for each position whose word is
in the variation map, add the standard form and every enumerated variant
substituted at that position. -/
def variationSubsts (words : List Str) (acc : List Str) : List Str :=
  (List.range words.length).foldl
    (fun acc i =>
      match (words.get? i).bind variationMap with
      | none => acc
      | some std =>
        let acc := addVar acc (joinSpace (words.set i std))
        ARABIC_VARIATIONS.foldl
          (fun acc p =>
            if std = p.1 then
              p.2.foldl (fun acc var => addVar acc (joinSpace (words.set i var))) acc
            else acc)
          acc)
    acc

/-- The `NameNormalizer.generate_variations` from `normalizer.py`: the normalized
name with and without prefixes, the reversed binomial and first-plus-last
short forms, and the Arabic-variation substitutions, as a duplicate-free
collection. -/
def generateVariations (name : Str) : List Str :=
  let normalized := normalize name true
  let acc := addVar [] normalized
  let acc := addVar acc (normalize name false)
  let words := pySplit normalized
  let acc :=
    if 2 ≤ words.length then
      let acc := addVar acc (joinSpace (words.getLastD [] :: words.dropLast))
      addVar acc (joinSpace [words.headD [], words.getLastD []])
    else acc
  variationSubsts words acc

/-- Classic Levenshtein distance, the metric behind
`rapidfuzz.distance.Levenshtein`.  Modelled from the spec:
`1 − lev(a,b)/max(|a|,|b|)` where `lev` is the classic Levenshtein
distance (`rapidfuzz` is an external dependency). -/
def levDist : Str → Str → Nat
  | [], t => t.length
  | s, [] => s.length
  | a :: as, b :: bs =>
    if a = b then levDist as bs
    else 1 + min (levDist as bs) (min (levDist (a :: as) bs) (levDist as (b :: bs)))
termination_by s t => s.length + t.length
decreasing_by all_goals simp only [List.length_cons]; omega

/-- Length of a longest common subsequence; the InDel distance underlying
`rapidfuzz.fuzz.ratio` is `|a| + |b| − 2·lcs(a,b)`. -/
def lcsLen : Str → Str → Nat
  | [], _ => 0
  | _, [] => 0
  | a :: as, b :: bs =>
    if a = b then 1 + lcsLen as bs
    else max (lcsLen (a :: as) bs) (lcsLen as (b :: bs))
termination_by s t => s.length + t.length
decreasing_by all_goals simp only [List.length_cons]; omega

/-- Modelled from the spec: `rapidfuzz.fuzz.ratio` is the normalized InDel
similarity (Ratcliff/Obershelp-equivalent per the spec), scaled to `[0,1]`:
`2·lcs(a,b)/(|a|+|b|)`, with two empty strings counting as similarity 1. -/
def indelSim (a b : Str) : ℚ :=
  if a.length + b.length = 0 then 1
  else 2 * (lcsLen a b : ℚ) / (a.length + b.length)

/-- Lexicographic comparison of strings by code point, as Python `sorted`. -/
def strLt : Str → Str → Bool
  | [], [] => false
  | [], _ :: _ => true
  | _ :: _, [] => false
  | a :: as, b :: bs => if a < b then true else if b < a then false else strLt as bs

/-- Insertion step of `sorted` over strings. -/
def insSorted (s : Str) : List Str → List Str
  | [] => [s]
  | t :: ts => if strLt s t then s :: t :: ts else t :: insSorted s ts

/-- Python `sorted` over a list of strings. -/
def sortStrs (l : List Str) : List Str := l.foldr insSorted []

/-- First-occurrence deduplication, the embedding of building a Python `set`
of tokens. -/
def dedupStrs (l : List Str) : List Str :=
  l.foldl (fun acc t => if t ∈ acc then acc else acc ++ [t]) []

/-- The `MatchScorer.calculate_token_sort`: sort each side's tokens, rejoin and
compare; empty inputs score 0. -/
def tokenSortScore (s1 s2 : Str) : ℚ :=
  if s1 = [] ∨ s2 = [] then 0
  else indelSim (joinSpace (sortStrs (pySplit s1))) (joinSpace (sortStrs (pySplit s2)))

/-- The `MatchScorer.calculate_token_set`.  Modelled from the spec: partition the
token sets into intersection and remainders, compute the three candidate
similarities of the known token-set-ratio recipe, take the maximum
(`rapidfuzz.fuzz.token_set_ratio` is an external dependency). -/
def tokenSetScore (s1 s2 : Str) : ℚ :=
  if s1 = [] ∨ s2 = [] then 0
  else
    let ta := sortStrs (dedupStrs (pySplit s1))
    let tb := sortStrs (dedupStrs (pySplit s2))
    let inter := ta.filter (· ∈ tb)
    let dab := ta.filter (· ∉ tb)
    let dba := tb.filter (· ∉ ta)
    let sect := joinSpace inter
    let c1 := pyStrip (sect ++ ' ' :: joinSpace dab)
    let c2 := pyStrip (sect ++ ' ' :: joinSpace dba)
    max (indelSim sect c1) (max (indelSim sect c2) (indelSim c1 c2))

/-- Adjacent-duplicate removal used by the phonetic encoder. -/
def dedupAdj : Str → Str
  | [] => []
  | [c] => [c]
  | c :: d :: rest => if c = d then dedupAdj (d :: rest) else c :: dedupAdj (d :: rest)

/-- Vowels for the phonetic encoder. -/
def isVowel (c : Char) : Bool :=
  c = 'a' || c = 'e' || c = 'i' || c = 'o' || c = 'u'

/-- Modelled from the spec: `jellyfish.metaphone` is an external dependency;
the spec requires only a Metaphone-class per-token phonetic encoder.  Keep
letters, lowercase them, keep the leading character, drop later vowels and
collapse doubled codes. -/
def metaphone (w : Str) : Str :=
  match (w.filter (fun c => ('a' ≤ c ∧ c ≤ 'z') || ('A' ≤ c ∧ c ≤ 'Z'))).map pyLower with
  | [] => []
  | c :: rest => dedupAdj (c :: rest.filter (fun d => !isVowel d))

/-- The `MatchScorer.calculate_phonetic`: per-token phonetic codes compared as
`|matches| / max(|codes1|, |codes2|)`; empty sides score 0. -/
def phoneticScore (s1 s2 : Str) : ℚ :=
  if s1 = [] ∨ s2 = [] then 0
  else
    let words1 := pySplit s1
    let words2 := pySplit s2
    if words1 = [] ∨ words2 = [] then 0
    else
      let codes1 := words1.map metaphone
      let codes2 := words2.map metaphone
      if codes1 = [] ∨ codes2 = [] then 0
      else ((codes1.filter (· ∈ codes2)).length : ℚ) / (max codes1.length codes2.length)

/-- Greedy window search of the standard Jaro matching step: find the first
unused position `j ∈ [lo, hi]` of the flagged second string holding `c`, and
mark it used. -/
def jwFindMatch (c : Char) (lo hi : Nat) : Nat → List (Char × Bool) → Option (List (Char × Bool))
  | _, [] => none
  | j, (d, used) :: rest =>
    if hi < j then none
    else if lo ≤ j && !used && d = c then some ((d, true) :: rest)
    else
      match jwFindMatch c lo hi (j + 1) rest with
      | some rest2 => some ((d, used) :: rest2)
      | none => none

/-- Run the Jaro matching pass over the first string, returning the matched
characters of the first string in order together with the final usage flags
of the second string. -/
def jwMatchAll (win : Nat) : Nat → Str → List (Char × Bool) → Str × List (Char × Bool)
  | _, [], flags => ([], flags)
  | i, c :: cs, flags =>
    match jwFindMatch c (i - win) (i + win) 0 flags with
    | some flags2 =>
      let r := jwMatchAll win (i + 1) cs flags2
      (c :: r.1, r.2)
    | none => jwMatchAll win (i + 1) cs flags

/-- Number of positions at which two equal-length strings disagree; the Jaro
transposition count is half of it. -/
def countDiff : Str → Str → Nat
  | a :: as, b :: bs => (if a = b then 0 else 1) + countDiff as bs
  | _, _ => 0

/-- Length of the shared leading run of two strings (Winkler prefix). -/
def sharedStart : Str → Str → Nat
  | a :: as, b :: bs => if a = b then 1 + sharedStart as bs else 0
  | _, _ => 0

/-- Modelled from the spec: the standard Jaro similarity behind
`rapidfuzz.distance.JaroWinkler` (external dependency); identity gives 1. -/
def jaroSim (a b : Str) : ℚ :=
  if a = [] ∧ b = [] then 1
  else if a = [] ∨ b = [] then 0
  else if a = b then 1
  else
    let la := a.length
    let lb := b.length
    let win := max la lb / 2 - 1
    let r := jwMatchAll win 0 a (b.map (fun c => (c, false)))
    let m := r.1.length
    if m = 0 then 0
    else
      let mb := (r.2.filter (·.2)).map (·.1)
      let t : ℚ := (countDiff r.1 mb : ℚ) / 2
      ((m : ℚ) / la + (m : ℚ) / lb + ((m : ℚ) - t) / m) / 3

/-- Modelled from the spec: the standard Jaro-Winkler similarity with prefix
weight `0.1` over at most 4 characters, applied above the usual `0.7`
boost threshold. -/
def jaroWinklerSim (a b : Str) : ℚ :=
  let j := jaroSim a b
  if 7 / 10 < j then j + (min (sharedStart a b) 4 : ℚ) * (1 / 10) * (1 - j)
  else j

/-- The `MatchScorer.calculate_jaro_winkler` with the source's empty-string
guard. -/
def calcJaroWinkler (s1 s2 : Str) : ℚ :=
  if s1 = [] ∨ s2 = [] then 0 else jaroWinklerSim s1 s2

/-- The `MatchScorer.calculate_levenshtein` with the source's empty-string
guard. -/
def calcLevenshtein (s1 s2 : Str) : ℚ :=
  if s1 = [] ∨ s2 = [] then 0
  else 1 - (levDist s1 s2 : ℚ) / (max s1.length s2.length)

/-- The five algorithm weights of `MatchScorer`. -/
structure AlgorithmWeights where
  jaro_winkler : ℚ
  levenshtein : ℚ
  token_sort : ℚ
  token_set : ℚ
  phonetic : ℚ
deriving DecidableEq

/-- Sum of the five weights. -/
def AlgorithmWeights.total (w : AlgorithmWeights) : ℚ :=
  w.jaro_winkler + w.levenshtein + w.token_sort + w.token_set + w.phonetic

/-- The `MatchScorer.DEFAULT_WEIGHTS` from `scorer.py`. -/
def DEFAULT_WEIGHTS : AlgorithmWeights :=
  { jaro_winkler := 3 / 10, levenshtein := 1 / 5, token_sort := 1 / 4,
    token_set := 3 / 20, phonetic := 1 / 10 }

/-- The `MatchScorer` object: its only state is the weight table. -/
structure MatchScorer where
  weights : AlgorithmWeights
deriving DecidableEq

/-- The `MatchScorer.__init__`: `self.weights = weights or self.DEFAULT_WEIGHTS`.
No validation of any kind is performed on the provided weights. -/
def MatchScorer.mkScorer (weights : Option AlgorithmWeights) : MatchScorer :=
  { weights := weights.getD DEFAULT_WEIGHTS }

/-- The `MatchScore` dataclass from `scorer.py`. -/
structure MatchScore where
  overall_score : ℚ
  jaro_winkler : ℚ
  levenshtein : ℚ
  token_sort : ℚ
  token_set : ℚ
  phonetic : ℚ
  exact_match : Bool
  algorithm_used : Str
deriving DecidableEq

/-- The `max(scores, key=scores.get)` over the insertion-ordered score dict:
the first algorithm tag attaining the maximum value. -/
def argmaxAlg (jw lev ts tset ph : ℚ) : Str :=
  let best := ("jaro_winkler".toList, jw)
  let best := if lev > best.2 then ("levenshtein".toList, lev) else best
  let best := if ts > best.2 then ("token_sort".toList, ts) else best
  let best := if tset > best.2 then ("token_set".toList, tset) else best
  let best := if ph > best.2 then ("phonetic".toList, ph) else best
  best.1

/-- The `MatchScorer.score` from `scorer.py`: optional normalization, the exact
short-circuit on case-folded equality, otherwise the weighted combination of
the five algorithms. -/
def MatchScorer.score (sc : MatchScorer) (query target : Str) (norm : Bool) : MatchScore :=
  let q := if norm then normalize query false else query
  let t := if norm then normalize target false else target
  if q.map pyLower = t.map pyLower then
    { overall_score := 1, jaro_winkler := 1, levenshtein := 1, token_sort := 1,
      token_set := 1, phonetic := 1, exact_match := true,
      algorithm_used := "exact".toList }
  else
    let jw := calcJaroWinkler q t
    let lev := calcLevenshtein q t
    let ts := tokenSortScore q t
    let tset := tokenSetScore q t
    let ph := phoneticScore q t
    { overall_score := sc.weights.jaro_winkler * jw + sc.weights.levenshtein * lev +
        sc.weights.token_sort * ts + sc.weights.token_set * tset +
        sc.weights.phonetic * ph,
      jaro_winkler := jw, levenshtein := lev, token_sort := ts, token_set := tset,
      phonetic := ph, exact_match := false,
      algorithm_used := argmaxAlg jw lev ts tset ph }

/-- One comparison of the `score_with_variations` double loop: keep the
incumbent unless the new pair scores strictly higher. -/
def swvStep (sc : MatchScorer) (b : Option MatchScore) (qv tv : Str) : Option MatchScore :=
  let s := sc.score qv tv false
  match b with
  | none => some s
  | some bs => if s.overall_score > bs.overall_score then some s else some bs

/-- The `MatchScorer.score_with_variations` from `scorer.py`: best score over the
Cartesian product of the two variation lists, falling back to a plain
normalized score if no pair was scored. -/
def MatchScorer.scoreWithVariations (sc : MatchScorer) (query target : Str) : MatchScore :=
  let qs := generateVariations query
  let ts := generateVariations target
  let best := qs.foldl (fun b qv => ts.foldl (fun b tv => swvStep sc b qv tv) b) none
  match best with
  | some s => s
  | none => sc.score query target true

/-- The `MatchScorer.quick_filter` from `scorer.py`: aggressive normalization,
the length-ratio cut at `0.5`, then a Jaro-Winkler threshold test. -/
def MatchScorer.quickFilter (query target : Str) (threshold : ℚ) : Bool :=
  let q := normalizeForMatching query
  let t := normalizeForMatching target
  let mx := max q.length t.length
  if mx = 0 then false
  else if (min q.length t.length : ℚ) / (mx : ℚ) < 1 / 2 then false
  else decide (threshold ≤ calcJaroWinkler q t)

/-- Python truthiness test `not x` for an optional string: `None` and the
empty string are falsy. -/
def strFalsy : Option Str → Bool
  | none => true
  | some s => s = []

/-- Split on every occurrence of a separator character (Python
`str.split(sep)` semantics: empty fields are kept). -/
def splitOnChar (sep : Char) : Str → List Str
  | [] => [[]]
  | c :: rest =>
    let r := splitOnChar sep rest
    if c = sep then [] :: r
    else
      match r with
      | [] => [[c]]
      | f :: fs => (c :: f) :: fs

/-- Parse a non-empty all-digit string. -/
def parseNatDigits (s : Str) : Option Nat :=
  if s = [] then none
  else if s.all (fun c => '0' ≤ c ∧ c ≤ '9') then
    some (s.foldl (fun n c => 10 * n + (c.toNat - 48)) 0)
  else none

/-- Gregorian leap-year rule used by `datetime`. -/
def isLeap (y : Nat) : Bool :=
  (y % 4 = 0 && y % 100 ≠ 0) || y % 400 = 0

/-- Days in a month for `datetime` validation. -/
def daysInMonth (y m : Nat) : Nat :=
  if m = 2 then (if isLeap y then 29 else 28)
  else if m = 4 ∨ m = 6 ∨ m = 9 ∨ m = 11 then 30
  else 31

/-- Calendar validity as enforced by `datetime.strptime`. -/
def validDate (y m d : Nat) : Bool :=
  1 ≤ y && y ≤ 9999 && 1 ≤ m && m ≤ 12 && 1 ≤ d && d ≤ daysInMonth y m

/-- Field order of a `strptime` date format. -/
inductive DateOrder
  | ymd
  | dmy
  | mdy
deriving DecidableEq

/-- One `datetime.strptime(date_str, fmt)` attempt for a three-field date
format: exact separator split, digit-count limits of `%Y`/`%m`/`%d`, and
calendar validation. -/
def tryFormat (sep : Char) (ord : DateOrder) (s : Str) : Option (Nat × Nat × Nat) :=
  match splitOnChar sep s with
  | [p1, p2, p3] =>
    let fields :=
      match ord with
      | .ymd => (p1, p2, p3)
      | .dmy => (p3, p2, p1)
      | .mdy => (p3, p1, p2)
    if fields.1.length ≤ 4 ∧ fields.2.1.length ≤ 2 ∧ fields.2.2.length ≤ 2 then
      match parseNatDigits fields.1, parseNatDigits fields.2.1, parseNatDigits fields.2.2 with
      | some y, some m, some d => if validDate y m d then some (y, m, d) else none
      | _, _, _ => none
    else none
  | _ => none

/-- Decimal digits of a natural number. -/
def natDigits (n : Nat) : Str := Nat.toDigits 10 n

/-- Zero-pad to two digits, as `strftime` `%m`/`%d`. -/
def pad2 (n : Nat) : Str := if n < 10 then '0' :: natDigits n else natDigits n

/-- The format list of `EnhancedScorer._normalize_date`, in source order. -/
def DATE_FORMATS : List (Char × DateOrder) :=
  [('-', .ymd), ('-', .dmy), ('-', .mdy),
   ('/', .ymd), ('/', .dmy), ('/', .mdy),
   ('.', .dmy), ('.', .ymd)]

/-- The `EnhancedScorer._normalize_date`: strip, try the formats in order, and
render the first hit as `YYYY-MM-DD`. -/
def normalizeDate (dateStr : Str) : Option Str :=
  if dateStr = [] then none
  else
    let s := pyStrip dateStr
    match DATE_FORMATS.foldl
        (fun acc fmt => match acc with
          | some r => some r
          | none => tryFormat fmt.1 fmt.2 s)
        none with
    | some (y, m, d) => some (natDigits y ++ '-' :: pad2 m ++ '-' :: pad2 d)
    | none => none

/-- The `EnhancedScorer._check_dob_match`: both present, both parseable, equal
normalized dates. -/
def checkDobMatch (query target : Option Str) : Bool :=
  if strFalsy query || strFalsy target then false
  else
    match normalizeDate (query.getD []), normalizeDate (target.getD []) with
    | some q, some t => q = t
    | _, _ => false

/-- The nationality alias table of `EnhancedScorer._check_nationality_match`. -/
def NATIONALITY_VARIATIONS : List (Str × List Str) :=
  [("uae".toList, ["united arab emirates".toList, "emirates".toList]),
   ("ksa".toList, ["saudi arabia".toList, "kingdom of saudi arabia".toList, "saudi".toList]),
   ("usa".toList, ["united states".toList, "united states of america".toList, "america".toList]),
   ("uk".toList, ["united kingdom".toList, "great britain".toList, "britain".toList, "england".toList])]

/-- The `EnhancedScorer._check_nationality_match`: case-insensitive equality of
the trimmed values, or joint membership in one alias class. -/
def checkNationalityMatch (query target : Option Str) : Bool :=
  if strFalsy query || strFalsy target then false
  else
    let q := (pyStrip (query.getD [])).map pyLower
    let t := (pyStrip (target.getD [])).map pyLower
    if q = t then true
    else
      NATIONALITY_VARIATIONS.any (fun p =>
        let allForms := p.1 :: p.2
        q ∈ allForms && t ∈ allForms)

/-- The `EnhancedScorer._check_id_match`: strip, uppercase, remove whitespace and
hyphens, byte equality. -/
def checkIdMatch (query target : Option Str) : Bool :=
  if strFalsy query || strFalsy target then false
  else
    let clean := fun (s : Str) =>
      ((pyStrip s).map pyUpper).filter (fun c => !(pySpace c || c = '-'))
    clean (query.getD []) = clean (target.getD [])

/-- The `EnhancedScorer.DOB_BOOST`. -/
def DOB_BOOST : ℚ := 3 / 20

/-- The `EnhancedScorer.NATIONALITY_BOOST`. -/
def NATIONALITY_BOOST : ℚ := 1 / 20

/-- The `EnhancedScorer.ID_BOOST`. -/
def ID_BOOST : ℚ := 1 / 5

/-- The `EnhancedMatchResult` dataclass from `scorer.py`. -/
structure EnhancedMatchResult where
  name_score : MatchScore
  dob_match : Bool
  nationality_match : Bool
  id_match : Bool
  combined_score : ℚ
  confidence_factors : List (Str × ℚ)
deriving DecidableEq

/-- The `EnhancedScorer.score` from `scorer.py`: variation-aware name score,
attribute concordance flags, and the sequentially clamped boost
composition. -/
def enhancedScore (queryName targetName : Str)
    (queryDob targetDob queryNationality targetNationality queryId targetId : Option Str) :
    EnhancedMatchResult :=
  let nameScore := (MatchScorer.mkScorer none).scoreWithVariations queryName targetName
  let dobMatch := checkDobMatch queryDob targetDob
  let nationalityMatch := checkNationalityMatch queryNationality targetNationality
  let idMatch := checkIdMatch queryId targetId
  let combined0 := nameScore.overall_score
  let factors0 := [("name".toList, nameScore.overall_score)]
  let combined1 := if dobMatch then min 1 (combined0 + DOB_BOOST) else combined0
  let factors1 := if dobMatch then factors0 ++ [("dob".toList, DOB_BOOST)] else factors0
  let combined2 := if nationalityMatch then min 1 (combined1 + NATIONALITY_BOOST) else combined1
  let factors2 := if nationalityMatch then factors1 ++ [("nationality".toList, NATIONALITY_BOOST)] else factors1
  let combined3 := if idMatch then min 1 (combined2 + ID_BOOST) else combined2
  let factors3 := if idMatch then factors2 ++ [("id".toList, ID_BOOST)] else factors2
  { name_score := nameScore, dob_match := dobMatch,
    nationality_match := nationalityMatch, id_match := idMatch,
    combined_score := combined3, confidence_factors := factors3 }

/-- The `ScreeningCandidate` dataclass from `matcher.py` (the query
entity). -/
structure ScreeningCandidate where
  name : Str
  entity_type : Str
  date_of_birth : Option Str
  nationality : Option Str
  national_id : Option Str
  passport_number : Option Str
  registration_number : Option Str
  registration_country : Option Str
deriving DecidableEq

/-- The derived `normalized_name` computed in
`ScreeningCandidate.__post_init__`. -/
def ScreeningCandidate.normalizedName (c : ScreeningCandidate) : Str :=
  normalize c.name false

/-- The `SanctionCandidate` dataclass from `matcher.py` (a list entry). -/
structure SanctionCandidate where
  id : Int
  list_code : Str
  list_name : Str
  primary_name : Str
  entity_type : Str
  aliases : List Str
  date_of_birth : Option Str
  nationality : Option Str
  national_id : Option Str
  sanction_date : Option Str
  sanction_programs : List Str
  sanction_reason : Option Str
  registration_number : Option Str
  registration_country : Option Str
deriving DecidableEq

/-- The derived `normalized_name` of `SanctionCandidate.__post_init__`. -/
def SanctionCandidate.normalizedName (e : SanctionCandidate) : Str :=
  normalize e.primary_name false

/-- The derived `normalized_aliases` of `SanctionCandidate.__post_init__`. -/
def SanctionCandidate.normalizedAliases (e : SanctionCandidate) : List Str :=
  e.aliases.map (fun a => normalize a false)

/-- The `MatchResult` dataclass from `matcher.py`. -/
structure MatchResult where
  sanction_candidate : SanctionCandidate
  matched_name : Str
  is_alias_match : Bool
  score_details : EnhancedMatchResult
deriving DecidableEq

/-- The `score` property of `MatchResult`. -/
def MatchResult.score (m : MatchResult) : ℚ := m.score_details.combined_score

/-- The `ScreeningResponse` dataclass from `matcher.py`.  The wall-clock
fields `processing_time_ms` and `timestamp` are I/O effects outside the
decision logic and are omitted. -/
structure ScreeningResponse where
  reference_id : Str
  screened_entity : ScreeningCandidate
  /-- The `matches` field of the response (`matches` is reserved in Lean). -/
  matchList : List MatchResult
  total_matches : Nat
  highest_score : ℚ
  risk_level : Str
  lists_screened : List Str
deriving DecidableEq

/-- The configuration held by `ScreeningMatcher.__init__`. -/
structure ScreeningMatcher where
  default_threshold : ℚ
  include_aliases : Bool
  max_results : Nat
deriving DecidableEq

/-- The constructor defaults of `ScreeningMatcher.__init__`. -/
def defaultMatcher : ScreeningMatcher :=
  { default_threshold := 3 / 4, include_aliases := true, max_results := 50 }

/-- The `threshold = threshold or self.default_threshold`: Python `or` replaces
both `None` and the falsy float `0.0` by the default. -/
def effectiveThreshold (cfg : ScreeningMatcher) (threshold : Option ℚ) : ℚ :=
  match threshold with
  | none => cfg.default_threshold
  | some v => if v = 0 then cfg.default_threshold else v

/-- The pre-filter step of `ScreeningMatcher.screen`: quick-filter the
primary name, then (when aliases are enabled) each alias, at `0.7 ×
threshold`. -/
def passesPrefilter (cfg : ScreeningMatcher) (cand : ScreeningCandidate)
    (threshold : ℚ) (e : SanctionCandidate) : Bool :=
  MatchScorer.quickFilter cand.normalizedName e.normalizedName (threshold * (7 / 10)) ||
    (cfg.include_aliases &&
      e.normalizedAliases.any (fun a =>
        MatchScorer.quickFilter cand.normalizedName a (threshold * (7 / 10))))

/-- The full-scoring call of `ScreeningMatcher.screen` against one surface
name of an entry: the query id is `national_id or passport_number`. -/
def scoreAgainst (cand : ScreeningCandidate) (e : SanctionCandidate)
    (targetName : Str) : EnhancedMatchResult :=
  enhancedScore cand.name targetName
    cand.date_of_birth e.date_of_birth
    cand.nationality e.nationality
    (if strFalsy cand.national_id then cand.passport_number else cand.national_id)
    e.national_id

/-- The best-of-primary-and-aliases selection of `ScreeningMatcher.screen`:
aliases only replace the incumbent on a strictly higher combined score. -/
def entryBest (cfg : ScreeningMatcher) (cand : ScreeningCandidate)
    (e : SanctionCandidate) : EnhancedMatchResult × Str × Bool :=
  let primary := (scoreAgainst cand e e.primary_name, e.primary_name, false)
  if cfg.include_aliases then
    e.aliases.foldl
      (fun best a =>
        let s := scoreAgainst cand e a
        if s.combined_score > best.1.combined_score then (s, a, true) else best)
      primary
  else primary

/-- The per-entry body of the `ScreeningMatcher.screen` loop: `none` when
the entry is pre-filtered away or the best combined score is below the
threshold. -/
def processEntry (cfg : ScreeningMatcher) (cand : ScreeningCandidate)
    (threshold : ℚ) (e : SanctionCandidate) : Option MatchResult :=
  if !passesPrefilter cfg cand threshold e then none
  else
    let best := entryBest cfg cand e
    if best.1.combined_score ≥ threshold then
      some { sanction_candidate := e, matched_name := best.2.1,
             is_alias_match := best.2.2, score_details := best.1 }
    else none

/-- Stable insertion of one result into a descending-by-score list: the
embedding of Python `list.sort(key=..., reverse=True)`, which is stable, via
insertion of each element after all earlier elements of equal or higher
score. -/
def insertByScore : List MatchResult → MatchResult → List MatchResult
  | [], m => [m]
  | x :: xs, m =>
    if x.score ≥ m.score then x :: insertByScore xs m else m :: x :: xs

/-- The `matches.sort(key=lambda m: m.score, reverse=True)`: a stable descending
sort by combined score (and by nothing else). -/
def sortByScoreDesc (l : List MatchResult) : List MatchResult :=
  l.foldl insertByScore []

/-- The `ScreeningMatcher._determine_risk_level`: first band of
`RISK_THRESHOLDS` whose lower bound the score reaches. -/
def riskLevel (score : ℚ) : Str :=
  if score ≥ 95 / 100 then "critical".toList
  else if score ≥ 85 / 100 then "high".toList
  else if score ≥ 7 / 10 then "medium".toList
  else "low".toList

/-- The `ScreeningMatcher.screen` from `matcher.py`: effective threshold,
per-entry pre-filter and scoring, threshold cut, stable descending sort,
truncation to `max_results`, highest score and risk level.  The generated
UUID reference is taken as the parameter `referenceId`. -/
def screen (cfg : ScreeningMatcher) (cand : ScreeningCandidate)
    (entries : List SanctionCandidate) (threshold : Option ℚ)
    (referenceId : Str) : ScreeningResponse :=
  let t := effectiveThreshold cfg threshold
  let collected := entries.filterMap (processEntry cfg cand t)
  let sorted := sortByScoreDesc collected
  let top := sorted.take cfg.max_results
  let highest := match top with
    | [] => 0
    | m :: _ => m.score
  { reference_id := referenceId, screened_entity := cand, matchList := top,
    total_matches := top.length, highest_score := highest,
    risk_level := riskLevel highest,
    lists_screened := dedupStrs (entries.map (·.list_code)) }

/-- The `ScreeningMatcher.screen_bulk`: screen each candidate in input order
with reference `"<batch_id>-<i>"` (`asyncio.gather` preserves order; the
generated batch UUID is the parameter `batchId`). -/
def screenBulk (cfg : ScreeningMatcher) (cands : List ScreeningCandidate)
    (entries : List SanctionCandidate) (threshold : Option ℚ)
    (batchId : Str) : List ScreeningResponse :=
  (List.range cands.length).zip cands |>.map
    (fun p => screen cfg p.2 entries threshold (batchId ++ '-' :: natDigits p.1))

/-- The classification of one query in
`BatchScreeningEngine.process_daily_screening`: the `if/elif/else` chain on
(current highest score, prior score). -/
inductive DiffClass
  | isNew
  | cleared
  | unchanged
deriving DecidableEq

/-- The classification chain of `process_daily_screening`. -/
def diffClass (prevScore current : ℚ) : DiffClass :=
  if current > 0 ∧ prevScore = 0 then .isNew
  else if current = 0 ∧ prevScore > 0 then .cleared
  else .unchanged

/-- The `previous_results.get(entity_id, 0.0)` over the prior-score table. -/
def lookupScore (prev : List (Str × ℚ)) (k : Str) : ℚ :=
  match prev.find? (fun p => p.1 = k) with
  | some p => p.2
  | none => 0

/-- Accumulator of the `process_daily_screening` loop. -/
structure DiffAcc where
  news : List ScreeningResponse
  clearedRefs : List (Str × ℚ)
  unchangedList : List ScreeningResponse
deriving DecidableEq

/-- The result dictionary of `process_daily_screening` (responses are kept
as values rather than `to_dict` renderings). -/
structure DailyResult where
  new_matches : List ScreeningResponse
  cleared_matches : List (Str × ℚ)
  unchanged_count : Nat
  total_screened : Nat
  total_with_matches : Nat
deriving DecidableEq

/-- One step of the `process_daily_screening` classification loop. -/
def diffStep (prev : List (Str × ℚ)) (acc : DiffAcc) (r : ScreeningResponse) : DiffAcc :=
  let p := lookupScore prev r.reference_id
  match diffClass p r.highest_score with
  | .isNew => { acc with news := acc.news ++ [r] }
  | .cleared => { acc with clearedRefs := acc.clearedRefs ++ [(r.reference_id, p)] }
  | .unchanged => { acc with unchangedList := acc.unchangedList ++ [r] }

/-- The `BatchScreeningEngine.process_daily_screening` from `matcher.py`:
re-screen all entities, then classify each response against the prior
baseline (prior score defaulting to 0). -/
def processDailyScreening (cfg : ScreeningMatcher)
    (entities : List ScreeningCandidate) (entries : List SanctionCandidate)
    (prev : List (Str × ℚ)) (batchId : Str) : DailyResult :=
  let results := screenBulk cfg entities entries none batchId
  let acc := results.foldl (diffStep prev) ⟨[], [], []⟩
  { new_matches := acc.news, cleared_matches := acc.clearedRefs,
    unchanged_count := acc.unchangedList.length,
    total_screened := entities.length,
    total_with_matches := (results.filter (fun r => decide (0 < r.total_matches))).length }

/-- Well-formed token lists: non-empty tokens containing no whitespace. -/
def GoodTokens (ts : List Str) : Prop :=
  ∀ t ∈ ts, t ≠ [] ∧ ∀ c ∈ t, pySpace c = false

/-- Whether the prefix-drop pass of a further `normalize` call would leave
the token list unchanged. -/
def headKept (ws : List Str) : Bool :=
  match ws with
  | [] => true
  | w :: _ => !(decide (w ∈ PREFIXES))

/-- Number of used positions in a Jaro flag list. -/
def countTrue (flags : List (Char × Bool)) : Nat := (flags.filter (·.2)).length

/-- The invariant carried through `score_with_variations`: scores are
bounded by 1, and only the exact short-circuit attains 1. -/
def ScoreP (s : MatchScore) : Prop :=
  s.overall_score ≤ 1 ∧ (s.overall_score = 1 → s.exact_match = true)

/-! ### Concrete inputs used by counterexamples and witnesses -/

/-- A minimal individual query with name `abc` and no attributes. -/
def exCand : ScreeningCandidate :=
  { name := "abc".toList, entity_type := "individual".toList,
    date_of_birth := none, nationality := none, national_id := none,
    passport_number := none, registration_number := none,
    registration_country := none }

/-- A corpus entry on list `B` with source id 2 and primary name `abc`. -/
def exEntryB : SanctionCandidate :=
  { id := 2, list_code := "B".toList, list_name := "List B".toList,
    primary_name := "abc".toList, entity_type := "individual".toList,
    aliases := [], date_of_birth := none, nationality := none, national_id := none,
    sanction_date := none, sanction_programs := [], sanction_reason := none,
    registration_number := none, registration_country := none }

/-- A corpus entry on list `A` with source id 1 and primary name `abc`. -/
def exEntryA : SanctionCandidate :=
  { exEntryB with id := 1, list_code := "A".toList, list_name := "List A".toList }

/-- The match produced for `exEntryA` when screening `exCand` against it. -/
def exMatchA : MatchResult :=
  { sanction_candidate := exEntryA, matched_name := "abc".toList,
    is_alias_match := false,
    score_details := scoreAgainst exCand exEntryA "abc".toList }

/-- A query whose name normalizes to the empty string. -/
def exCandBang : ScreeningCandidate :=
  { exCand with name := "!!!".toList }

/-- An entry whose primary name normalizes to the empty string. -/
def exEntryQm : SanctionCandidate :=
  { exEntryB with
    id := 7
    list_code := "OFAC".toList
    primary_name := "???".toList }

/-- A seven-token name each of whose tokens admits five enumerated
variants. -/
def exName7 : Str :=
  "mohammed mohammed mohammed mohammed mohammed mohammed mohammed".toList

/-! ### Lemmas about the whitespace machinery of `normalize` -/

/-- The adjacency relation "no two consecutive whitespace characters". -/
def NoWsPair (a b : Char) : Prop := pySpace a = false ∨ pySpace b = false

/-- Character provenance through `collapseWs`: every output character is a
space introduced by collapsing, or a non-whitespace input character. -/
theorem mem_collapseWs {c : Char} :
    ∀ {l : Str}, c ∈ collapseWs l → c = ' ' ∨ (c ∈ l ∧ pySpace c = false) := by
  intro l
  induction l with
  | nil => simp [collapseWs]
  | cons a rest ih =>
    match rest with
    | [] =>
      simp only [collapseWs]
      cases ha : pySpace a
      · simp only [Bool.false_eq_true, if_false, List.mem_singleton]
        rintro rfl
        exact Or.inr ⟨rfl, ha⟩
      · simp only [if_true, List.mem_singleton]
        rintro rfl
        exact Or.inl rfl
    | d :: r2 =>
      simp only [collapseWs]
      cases had : pySpace a && pySpace d
      · simp only [Bool.false_eq_true, if_false]
        intro h
        rcases List.mem_cons.1 h with h1 | h2
        · cases ha : pySpace a
          · simp only [ha, Bool.false_eq_true, if_false] at h1
            subst h1
            exact Or.inr ⟨List.mem_cons_self _ _, ha⟩
          · simp only [ha, if_true] at h1
            exact Or.inl h1
        · rcases ih h2 with h3 | ⟨h4, h5⟩
          · exact Or.inl h3
          · exact Or.inr ⟨List.mem_cons_of_mem _ h4, h5⟩
      · simp only [if_true]
        intro h
        rcases ih h with h1 | ⟨h2, h3⟩
        · exact Or.inl h1
        · exact Or.inr ⟨List.mem_cons_of_mem _ h2, h3⟩

/-- Every whitespace character in the output of `collapseWs` is a plain
space. -/
theorem spaces_collapseWs {c : Char} {l : Str} (h : c ∈ collapseWs l)
    (hs : pySpace c = true) : c = ' ' := by
  rcases mem_collapseWs h with h1 | ⟨_, h2⟩
  · exact h1
  · rw [hs] at h2
    cases h2

/-- The head of `collapseWs` on a non-empty list. -/
theorem head_collapseWs :
    ∀ (r : Str) (d : Char), (collapseWs (d :: r)).head? = some (if pySpace d then ' ' else d) := by
  intro r
  induction r with
  | nil =>
    intro d
    simp only [collapseWs]
    by_cases hd : pySpace d <;> simp [hd]
  | cons e r3 ih =>
    intro d
    simp only [collapseWs]
    cases hde : pySpace d && pySpace e
    · simp [hde]
    · have h2 : pySpace d = true ∧ pySpace e = true := by simpa using hde
      simp only [if_true, ih e, h2.1, h2.2]

/-- The `collapseWs` leaves no two adjacent whitespace characters. -/
theorem chain_collapseWs : ∀ l : Str, List.Chain' NoWsPair (collapseWs l) := by
  intro l
  induction l with
  | nil => simp [collapseWs]
  | cons a rest ih =>
    match rest with
    | [] =>
      simp only [collapseWs]
      by_cases ha : pySpace a <;> simp [ha]
    | d :: r2 =>
      simp only [collapseWs]
      by_cases had : pySpace a && pySpace d
      · simpa [had] using ih
      · simp only [had, if_false]
        rcases hc : collapseWs (d :: r2) with _ | ⟨x, xs⟩
        · simp
        · refine List.chain'_cons.2 ⟨?_, by rw [← hc]; exact ih⟩
          have hx : x = if pySpace d then ' ' else d := by
            have := head_collapseWs r2 d
            rw [hc] at this
            simpa using this
          by_cases ha : pySpace a
          · have hd : pySpace d = false := by
              cases hpd : pySpace d
              · rfl
              · rw [ha, hpd] at had; simp at had
            right
            rw [hx, hd]
            simp [hd]
          · left
            simp [ha]

/-- The `collapseWs` fixes any list with no adjacent whitespace whose whitespace
characters are all plain spaces. -/
theorem collapseWs_eq_self :
    ∀ l : Str, List.Chain' NoWsPair l → (∀ c ∈ l, pySpace c = true → c = ' ') →
      collapseWs l = l := by
  intro l
  induction l with
  | nil => intro _ _; rfl
  | cons a rest ih =>
    intro hc hs
    match rest with
    | [] =>
      simp only [collapseWs]
      cases ha : pySpace a
      · simp
      · rw [if_pos rfl, hs a (List.mem_singleton_self a) ha]
    | d :: r2 =>
      have hrel : NoWsPair a d := (List.chain'_cons.1 hc).1
      have had : (pySpace a && pySpace d) = false := by
        rcases hrel with h | h <;> simp [h]
      simp only [collapseWs, had, Bool.false_eq_true, if_false]
      have htail : collapseWs (d :: r2) = d :: r2 :=
        ih (List.chain'_cons.1 hc).2 (fun c hcm => hs c (List.mem_cons_of_mem _ hcm))
      rw [htail]
      cases ha : pySpace a
      · simp
      · rw [if_pos rfl, hs a (List.mem_cons_self _ _) ha]

/-- The `dropWhile` produces a suffix. -/
theorem dropWhile_suffix_self (p : Char → Bool) :
    ∀ l : Str, l.dropWhile p <:+ l := by
  intro l
  induction l with
  | nil => exact List.suffix_refl _
  | cons c cs ih =>
    rw [List.dropWhile]
    cases p c
    · exact List.suffix_refl _
    · exact ih.trans (List.suffix_cons c cs)

/-- Membership is preserved from `pyStrip` output to input. -/
theorem mem_pyStrip {c : Char} {l : Str} (h : c ∈ pyStrip l) : c ∈ l := by
  unfold pyStrip at h
  rw [List.mem_reverse] at h
  have h2 := (dropWhile_suffix_self pySpace _).subset h
  rw [List.mem_reverse] at h2
  exact (dropWhile_suffix_self pySpace _).subset h2

/-- The head of a `dropWhile` result falsifies the predicate. -/
theorem head_dropWhile_not (p : Char → Bool) :
    ∀ l : Str, ∀ {c}, (l.dropWhile p).head? = some c → p c = false := by
  intro l
  induction l with
  | nil => intro c h; cases h
  | cons a rest ih =>
    intro c h
    rw [List.dropWhile] at h
    cases hp : p a
    · rw [hp] at h
      simp only [List.head?] at h
      cases h
      exact hp
    · rw [hp] at h
      exact ih h

/-- The `dropWhile` fixes a list whose head falsifies the predicate. -/
theorem dropWhile_eq_self_head (p : Char → Bool) (l : Str)
    (h : ∀ c, l.head? = some c → p c = false) : l.dropWhile p = l := by
  match l with
  | [] => rfl
  | a :: rest =>
    rw [List.dropWhile, h a rfl]

/-- The head of `pyStrip` output is not whitespace. -/
theorem pyStrip_head_not {l : Str} {c : Char} (h : (pyStrip l).head? = some c) :
    pySpace c = false := by
  unfold pyStrip at h
  rw [List.head?_reverse] at h
  obtain ⟨s, hs⟩ := dropWhile_suffix_self pySpace (List.dropWhile pySpace l).reverse
  have hb : (List.dropWhile pySpace l).reverse.dropWhile pySpace ≠ [] := by
    intro hnil
    rw [hnil] at h
    cases h
  have h1 := List.getLast?_append_of_ne_nil s hb
  rw [hs, List.getLast?_reverse] at h1
  rw [h] at h1
  exact head_dropWhile_not pySpace l h1

/-- The last character of `pyStrip` output is not whitespace. -/
theorem pyStrip_last_not {l : Str} {c : Char} (h : (pyStrip l).getLast? = some c) :
    pySpace c = false := by
  unfold pyStrip at h
  rw [List.getLast?_reverse] at h
  exact head_dropWhile_not pySpace _ h

/-- The `pyStrip` fixes a list whose first and last characters are not
whitespace. -/
theorem pyStrip_eq_self {l : Str}
    (hh : ∀ c, l.head? = some c → pySpace c = false)
    (hl : ∀ c, l.getLast? = some c → pySpace c = false) : pyStrip l = l := by
  unfold pyStrip
  rw [dropWhile_eq_self_head pySpace l hh]
  rw [dropWhile_eq_self_head pySpace l.reverse
    (fun c hc => hl c (by rwa [List.head?_reverse] at hc))]
  exact List.reverse_reverse l

/-- The `NoWsPair` is symmetric. -/
theorem NoWsPair_symm {a b : Char} (h : NoWsPair a b) : NoWsPair b a := h.symm

/-- A `Chain'` of `NoWsPair` survives `pyStrip`. -/
theorem chain_pyStrip {l : Str} (h : List.Chain' NoWsPair l) :
    List.Chain' NoWsPair (pyStrip l) := by
  unfold pyStrip
  have h1 : List.Chain' NoWsPair (l.dropWhile pySpace) :=
    h.suffix (dropWhile_suffix_self pySpace l)
  have h2 : List.Chain' NoWsPair (l.dropWhile pySpace).reverse := by
    rw [List.chain'_reverse]
    exact h1.imp (fun a b hab => NoWsPair_symm hab)
  have h3 : List.Chain' NoWsPair ((l.dropWhile pySpace).reverse.dropWhile pySpace) :=
    h2.suffix (dropWhile_suffix_self pySpace _)
  rw [List.chain'_reverse]
  exact h3.imp (fun a b hab => NoWsPair_symm hab)

/-- Idempotence of the strip-collapse composition: the core cleanliness fact
behind the normalizer. -/
theorem stripCollapse_idem (x : Str) :
    pyStrip (collapseWs (pyStrip (collapseWs x))) = pyStrip (collapseWs x) := by
  have hchain : List.Chain' NoWsPair (pyStrip (collapseWs x)) :=
    chain_pyStrip (chain_collapseWs x)
  have hspaces : ∀ c ∈ pyStrip (collapseWs x), pySpace c = true → c = ' ' :=
    fun c hc hs => spaces_collapseWs (mem_pyStrip hc) hs
  rw [collapseWs_eq_self _ hchain hspaces]
  exact pyStrip_eq_self (fun c hc => pyStrip_head_not hc) (fun c hc => pyStrip_last_not hc)

/-- A whitespace-free list trivially has no adjacent whitespace pair. -/
theorem chain_of_all_nonspace :
    ∀ {l : Str}, (∀ c ∈ l, pySpace c = false) → List.Chain' NoWsPair l := by
  intro l
  induction l with
  | nil => intro _; simp
  | cons a rest ih =>
    intro h
    rw [List.chain'_cons']
    refine ⟨fun b _ => Or.inl (h a (List.mem_cons_self _ _)), ?_⟩
    exact ih (fun c hc => h c (List.mem_cons_of_mem _ hc))

/-- The `joinSpace` of a good non-empty token list is non-empty. -/
theorem joinSpace_ne_nil {ts : List Str} (h : GoodTokens ts) (hne : ts ≠ []) :
    joinSpace ts ≠ [] := by
  match ts with
  | [] => exact absurd rfl hne
  | [t] =>
    simpa [joinSpace] using (h t (List.mem_singleton_self t)).1
  | t :: t2 :: ts2 =>
    have ht : t ≠ [] := (h t (List.mem_cons_self _ _)).1
    simp only [joinSpace]
    intro hx
    rcases List.append_eq_nil.1 hx with ⟨h1, _⟩
    exact ht h1

/-- Character provenance through `joinSpace`. -/
theorem mem_joinSpace {c : Char} :
    ∀ {ts : List Str}, c ∈ joinSpace ts → c = ' ' ∨ ∃ t ∈ ts, c ∈ t := by
  intro ts
  induction ts with
  | nil => simp [joinSpace]
  | cons t rest ih =>
    match rest with
    | [] =>
      intro h
      exact Or.inr ⟨t, List.mem_singleton_self t, h⟩
    | t2 :: ts2 =>
      intro h
      simp only [joinSpace] at h
      rcases List.mem_append.1 h with h1 | h2
      · exact Or.inr ⟨t, List.mem_cons_self _ _, h1⟩
      · rcases List.mem_cons.1 h2 with h3 | h4
        · exact Or.inl h3
        · rcases ih h4 with h5 | ⟨u, hu, hcu⟩
          · exact Or.inl h5
          · exact Or.inr ⟨u, List.mem_cons_of_mem _ hu, hcu⟩

/-- The head of `joinSpace` over good tokens is not whitespace. -/
theorem joinSpace_head_not :
    ∀ {ts : List Str}, GoodTokens ts → ∀ {c : Char},
      (joinSpace ts).head? = some c → pySpace c = false := by
  intro ts
  induction ts with
  | nil => intro _ c h; cases h
  | cons t rest ih =>
    intro hg c h
    have ht := hg t (List.mem_cons_self _ _)
    match rest with
    | [] =>
      simp only [joinSpace] at h
      exact ht.2 c (List.mem_of_mem_head? h)
    | t2 :: ts2 =>
      simp only [joinSpace] at h
      match t, ht.1 with
      | a :: t', _ =>
        simp only [List.cons_append, List.head?] at h
        cases h
        exact ht.2 _ (List.mem_cons_self _ _)

/-- The last character of `joinSpace` over good tokens is not whitespace. -/
theorem joinSpace_last_not :
    ∀ {ts : List Str}, GoodTokens ts → ∀ {c : Char},
      (joinSpace ts).getLast? = some c → pySpace c = false := by
  intro ts
  induction ts with
  | nil => intro _ c h; cases h
  | cons t rest ih =>
    intro hg c h
    have ht := hg t (List.mem_cons_self _ _)
    have hgrest : GoodTokens rest := fun u hu => hg u (List.mem_cons_of_mem _ hu)
    match rest with
    | [] =>
      simp only [joinSpace] at h
      exact ht.2 c (List.mem_of_mem_getLast? h)
    | t2 :: ts2 =>
      simp only [joinSpace] at h
      have hne : (' ' :: joinSpace (t2 :: ts2)) ≠ [] := by simp
      rw [List.getLast?_append_of_ne_nil _ hne] at h
      have hjne : joinSpace (t2 :: ts2) ≠ [] := joinSpace_ne_nil hgrest (by simp)
      have : (' ' :: joinSpace (t2 :: ts2)).getLast? = (joinSpace (t2 :: ts2)).getLast? := by
        have := List.getLast?_append_of_ne_nil [' '] hjne
        simpa using this
      rw [this] at h
      exact ih hgrest h

/-- The `joinSpace` over good tokens has no adjacent whitespace pair. -/
theorem chain_joinSpace :
    ∀ {ts : List Str}, GoodTokens ts → List.Chain' NoWsPair (joinSpace ts) := by
  intro ts
  induction ts with
  | nil => intro _; simp [joinSpace]
  | cons t rest ih =>
    intro hg
    have ht := hg t (List.mem_cons_self _ _)
    have hgrest : GoodTokens rest := fun u hu => hg u (List.mem_cons_of_mem _ hu)
    match rest with
    | [] => exact chain_of_all_nonspace ht.2
    | t2 :: ts2 =>
      simp only [joinSpace]
      rw [List.chain'_append]
      refine ⟨chain_of_all_nonspace ht.2, ?_, ?_⟩
      · rw [List.chain'_cons']
        refine ⟨?_, ih hgrest⟩
        intro b hb
        exact Or.inr (joinSpace_head_not hgrest hb)
      · intro x hx y hy
        simp only [List.head?] at hy
        cases hy
        exact Or.inl (ht.2 x (List.mem_of_mem_getLast? hx))

/-- The `joinSpace` over good tokens is already clean: stripping and collapsing
fix it. -/
theorem clean_joinSpace {ts : List Str} (h : GoodTokens ts) :
    pyStrip (collapseWs (joinSpace ts)) = joinSpace ts := by
  have hsp : ∀ c ∈ joinSpace ts, pySpace c = true → c = ' ' := by
    intro c hc hs
    rcases mem_joinSpace hc with h1 | ⟨t, ht, hct⟩
    · exact h1
    · rw [(h t ht).2 c hct] at hs
      cases hs
  rw [collapseWs_eq_self _ (chain_joinSpace h) hsp]
  exact pyStrip_eq_self (fun c hc => joinSpace_head_not h hc)
    (fun c hc => joinSpace_last_not h hc)

/-- Tokens produced by `pySplitAux` from a whitespace-free accumulator are
non-empty and whitespace-free, with characters drawn from the input or the
accumulator. -/
theorem pySplitAux_good :
    ∀ (s : Str) (acc : Str), (∀ c ∈ acc, pySpace c = false) →
      ∀ t ∈ pySplitAux s acc,
        (t ≠ [] ∧ ∀ c ∈ t, pySpace c = false) ∧ ∀ c ∈ t, c ∈ s ∨ c ∈ acc := by
  intro s
  induction s with
  | nil =>
    intro acc hacc t ht
    simp only [pySplitAux] at ht
    rcases hna : acc with _ | ⟨a, acc2⟩
    · subst hna; simp at ht
    · subst hna
      rw [if_neg (by simp)] at ht
      rcases List.mem_singleton.1 ht with rfl
      refine ⟨⟨by simp, ?_⟩, ?_⟩
      · intro c hc
        exact hacc c (List.mem_reverse.1 hc)
      · intro c hc
        exact Or.inr (List.mem_reverse.1 hc)
  | cons x rest ih =>
    intro acc hacc t ht
    simp only [pySplitAux] at ht
    cases hx : pySpace x
    · rw [hx] at ht
      simp only [Bool.false_eq_true, if_false] at ht
      have hacc2 : ∀ c ∈ x :: acc, pySpace c = false := by
        intro c hc
        rcases List.mem_cons.1 hc with rfl | hc2
        · exact hx
        · exact hacc c hc2
      rcases ih (x :: acc) hacc2 t ht with ⟨hgood, hprov⟩
      refine ⟨hgood, ?_⟩
      intro c hc
      rcases hprov c hc with h1 | h2
      · exact Or.inl (List.mem_cons_of_mem _ h1)
      · rcases List.mem_cons.1 h2 with rfl | h3
        · exact Or.inl (List.mem_cons_self _ _)
        · exact Or.inr h3
    · rw [hx] at ht
      simp only [if_true] at ht
      rcases hna : acc with _ | ⟨a, acc2⟩
      · subst hna
        rw [if_pos rfl] at ht
        rcases ih [] (by simp) t ht with ⟨hgood, hprov⟩
        refine ⟨hgood, ?_⟩
        intro c hc
        rcases hprov c hc with h1 | h2
        · exact Or.inl (List.mem_cons_of_mem _ h1)
        · simp at h2
      · subst hna
        rw [if_neg (by simp)] at ht
        rcases List.mem_cons.1 ht with rfl | ht2
        · refine ⟨⟨by simp, ?_⟩, ?_⟩
          · intro c hc
            exact hacc c (List.mem_reverse.1 hc)
          · intro c hc
            exact Or.inr (List.mem_reverse.1 hc)
        · rcases ih [] (by simp) t ht2 with ⟨hgood, hprov⟩
          refine ⟨hgood, ?_⟩
          intro c hc
          rcases hprov c hc with h1 | h2
          · exact Or.inl (List.mem_cons_of_mem _ h1)
          · simp at h2

/-- The fields of `pySplit` are non-empty and whitespace-free. -/
theorem pySplit_good (s : Str) : GoodTokens (pySplit s) := by
  intro t ht
  exact (pySplitAux_good s [] (by simp) t ht).1

/-- Characters of `pySplit` fields come from the input string. -/
theorem pySplit_chars {s : Str} {t : Str} (ht : t ∈ pySplit s) {c : Char}
    (hc : c ∈ t) : c ∈ s := by
  rcases (pySplitAux_good s [] (by simp) t ht).2 c hc with h1 | h2
  · exact h1
  · simp at h2

/-- Feeding a whitespace-free token into `pySplitAux` accumulates it. -/
theorem pySplitAux_token :
    ∀ (t : Str), (∀ c ∈ t, pySpace c = false) →
      ∀ (rest : Str) (acc : Str),
        pySplitAux (t ++ rest) acc = pySplitAux rest (t.reverse ++ acc) := by
  intro t
  induction t with
  | nil => intro _ rest acc; simp
  | cons c t2 ih =>
    intro h rest acc
    have hc : pySpace c = false := h c (List.mem_cons_self _ _)
    rw [List.cons_append]
    rw [show pySplitAux (c :: (t2 ++ rest)) acc = pySplitAux (t2 ++ rest) (c :: acc) by
      simp [pySplitAux, hc]]
    rw [ih (fun d hd => h d (List.mem_cons_of_mem _ hd)) rest (c :: acc)]
    simp

/-- The `pySplit` inverts `joinSpace` on good token lists. -/
theorem pySplit_joinSpace :
    ∀ {ts : List Str}, GoodTokens ts → pySplit (joinSpace ts) = ts := by
  intro ts
  induction ts with
  | nil => intro _; rfl
  | cons t rest ih =>
    intro hg
    have ht := hg t (List.mem_cons_self _ _)
    have hgrest : GoodTokens rest := fun u hu => hg u (List.mem_cons_of_mem _ hu)
    match rest with
    | [] =>
      show pySplitAux (joinSpace [t]) [] = [t]
      simp only [joinSpace]
      have : pySplitAux (t ++ []) [] = pySplitAux [] (t.reverse ++ []) :=
        pySplitAux_token t ht.2 [] []
      rw [List.append_nil] at this
      rw [this]
      simp only [pySplitAux, List.append_nil]
      rw [if_neg (by simpa using ht.1)]
      simp
    | t2 :: ts2 =>
      show pySplitAux (joinSpace (t :: t2 :: ts2)) [] = t :: t2 :: ts2
      simp only [joinSpace]
      rw [pySplitAux_token t ht.2 (' ' :: joinSpace (t2 :: ts2)) []]
      have hsp : pySpace ' ' = true := by decide
      simp only [pySplitAux, hsp, if_true, List.append_nil]
      rw [if_neg (by simpa using ht.1)]
      simp only [List.reverse_reverse]
      exact congrArg (t :: ·) (ih hgrest)

/-! ### Character facts and the normalize characterization -/

/-- The `Char.ofNat` round-trips on code points below the surrogate range. -/
theorem toNat_ofNat_valid {n : Nat} (h : n < 55296) : (Char.ofNat n).toNat = n := by
  have hv : n.isValidChar := Or.inl h
  rw [Char.ofNat, dif_pos hv]
  rfl

/-- The `pyLower` is idempotent. -/
theorem pyLower_fixed (c : Char) : pyLower (pyLower c) = pyLower c := by
  unfold pyLower
  by_cases h : 65 ≤ c.toNat ∧ c.toNat ≤ 90
  · rw [if_pos h]
    have ht : (Char.ofNat (c.toNat + 32)).toNat = c.toNat + 32 :=
      toNat_ofNat_valid (by omega)
    rw [if_neg (by omega)]
  · rw [if_neg h, if_neg h]

/-- The image of `pyLower` is never an upper-case letter. -/
theorem pyLower_image_fixed {c d : Char} (h : c = pyLower d) : pyLower c = c := by
  subst h
  exact pyLower_fixed d

/-- Whitespace characters all have code points below 48. -/
theorem pySpace_toNat {c : Char} (h : pySpace c = true) : c.toNat < 48 := by
  simp only [pySpace, Bool.or_eq_true, decide_eq_true_eq] at h
  rcases h with ((((((((h | h) | h) | h) | h) | h) | h) | h) | h) | h <;>
    subst h <;> decide

/-- Word characters are not whitespace. -/
theorem wordChar_not_space {c : Char} (h : isWordChar c = true) : pySpace c = false := by
  cases hs : pySpace c
  · rfl
  · have h48 := pySpace_toNat hs
    simp only [isWordChar, Bool.or_eq_true, decide_eq_true_eq] at h
    rcases h with ((h | h) | h) | h
    · omega
    · omega
    · omega
    · subst h
      simp at h48

/-- Word characters are not hyphens. -/
theorem wordChar_not_hyphen {c : Char} (h : isWordChar c = true) : c ≠ '-' := by
  intro hc
  subst hc
  simp only [isWordChar, Bool.or_eq_true, decide_eq_true_eq] at h
  rcases h with ((h | h) | h) | h
  · revert h; decide
  · revert h; decide
  · revert h; decide
  · cases h

/-- Word characters are ASCII. -/
theorem wordChar_ascii {c : Char} (h : isWordChar c = true) : c.toNat < 128 := by
  simp only [isWordChar, Bool.or_eq_true, decide_eq_true_eq] at h
  rcases h with ((h | h) | h) | h
  · omega
  · omega
  · omega
  · subst h; decide

/-- The `unidecode` fixes ASCII strings. -/
theorem unidecode_eq_self {s : Str} (h : ∀ c ∈ s, c.toNat < 128) :
    unidecode s = s := by
  induction s with
  | nil => rfl
  | cons c rest ih =>
    have hc : unidecodeChar c = [c] := by
      unfold unidecodeChar
      rw [if_pos (h c (List.mem_cons_self _ _))]
    show unidecodeChar c ++ unidecode rest = c :: rest
    rw [hc, ih (fun d hd => h d (List.mem_cons_of_mem _ hd))]
    rfl

/-- A map that fixes every element of a list fixes the list. -/
theorem map_eq_self {f : Char → Char} {l : Str} (h : ∀ c ∈ l, f c = c) :
    l.map f = l := by
  induction l with
  | nil => rfl
  | cons c rest ih =>
    simp only [List.map_cons, h c (List.mem_cons_self _ _),
      ih (fun d hd => h d (List.mem_cons_of_mem _ hd))]

/-- Characters of `normPre` output: plain spaces, or fixed lower-case word
characters. -/
theorem normPre_chars {name : Str} {c : Char} (h : c ∈ normPre name) :
    c = ' ' ∨ (isWordChar c = true ∧ pyLower c = c) := by
  unfold normPre at h
  rcases List.mem_map.1 h with ⟨d, hd, hcd⟩
  by_cases hdh : d = '-'
  · rw [hdh] at hcd
    exact Or.inl hcd.symm
  · rw [if_neg hdh] at hcd
    subst hcd
    rcases mem_collapseWs (mem_pyStrip hd) with h1 | ⟨h2, h3⟩
    · exact Or.inl h1
    · rcases List.mem_filter.1 h2 with ⟨h4, h5⟩
      simp only [keepChar, Bool.or_eq_true] at h5
      rcases h5 with (hw | hs) | hh
      · rcases List.mem_map.1 h4 with ⟨e, _, he⟩
        exact Or.inr ⟨hw, pyLower_image_fixed he.symm⟩
      · rw [hs] at h3
        cases h3
      · exact absurd (by simpa using hh) hdh

/-- Characters of `normalize` output: plain spaces, or fixed lower-case word
characters. -/
theorem normalize_chars {name : Str} {keep : Bool} {c : Char}
    (h : c ∈ normalize name keep) :
    c = ' ' ∨ (isWordChar c = true ∧ pyLower c = c) := by
  unfold normalize at h
  by_cases hn : name = []
  · rw [if_pos hn] at h
    cases h
  · rw [if_neg hn] at h
    simp only at h
    rcases mem_collapseWs (mem_pyStrip h) with h1 | ⟨h2, _⟩
    · exact Or.inl h1
    · cases keep with
      | true =>
        simp only [if_true] at h2
        exact normPre_chars h2
      | false =>
        simp only [Bool.false_eq_true, if_false] at h2
        rcases mem_joinSpace h2 with h3 | ⟨t, ht, hct⟩
        · exact Or.inl h3
        · have ht2 : t ∈ pySplit (normPre name) := by
            rcases hsp : pySplit (normPre name) with _ | ⟨w, ws2⟩
            · rw [hsp] at ht
              rw [show dropLeadToken [] = [] from rfl] at ht
              cases ht
            · rw [hsp] at ht
              rw [show dropLeadToken (w :: ws2) =
                  if w ∈ PREFIXES then ws2 else w :: ws2 from rfl] at ht
              by_cases hw : w ∈ PREFIXES
              · rw [if_pos hw] at ht
                exact hsp ▸ List.mem_cons_of_mem _ ht
              · rw [if_neg hw] at ht
                exact hsp ▸ ht
          exact normPre_chars (pySplit_chars ht2 hct)

/-- The output of `normalize` is clean: stripping and collapsing fix it. -/
theorem normalize_clean (name : Str) (keep : Bool) :
    pyStrip (collapseWs (normalize name keep)) = normalize name keep := by
  unfold normalize
  by_cases hn : name = []
  · rw [if_pos hn]
    rfl
  · rw [if_neg hn]
    simp only
    exact stripCollapse_idem _

/-- The first five stages of a second `normalize` pass fix an already
normalized string. -/
theorem normPre_fixes_normalized {name : Str} {keep : Bool} :
    normPre (normalize name keep) = normalize name keep := by
  have hchars := fun {c} (hc : c ∈ normalize name keep) => normalize_chars hc
  have h1 : unidecode (normalize name keep) = normalize name keep :=
    unidecode_eq_self (fun c hc => by
      rcases hchars hc with h1 | ⟨h2, _⟩
      · subst h1; decide
      · exact wordChar_ascii h2)
  have h2 : (normalize name keep).map pyLower = normalize name keep :=
    map_eq_self (fun c hc => by
      rcases hchars hc with h1 | ⟨_, h3⟩
      · subst h1; decide
      · exact h3)
  have h3 : (normalize name keep).filter keepChar = normalize name keep :=
    List.filter_eq_self.2 (fun c hc => by
      rcases hchars hc with h1 | ⟨h2, _⟩
      · subst h1
        simp [keepChar, pySpace]
      · simp [keepChar, h2])
  have h5 : (normalize name keep).map (fun c => if c = '-' then ' ' else c) =
      normalize name keep :=
    map_eq_self (fun c hc => by
      rcases hchars hc with h1 | ⟨h2, _⟩
      · subst h1; rfl
      · rw [if_neg (wordChar_not_hyphen h2)])
  unfold normPre
  rw [h1, h2, h3, normalize_clean name keep, h5]

/-- The `normalize` with `keep_prefixes = true` is idempotent. -/
theorem normalize_idem_keep (name : Str) :
    normalize (normalize name true) true = normalize name true := by
  by_cases hy : normalize name true = []
  · rw [hy]
    rfl
  · conv_lhs => rw [normalize]
    rw [if_neg hy]
    simp only [if_true]
    rw [normPre_fixes_normalized]
    exact normalize_clean name true

/-- The `dropLeadToken` preserves token well-formedness. -/
theorem goodTokens_dropLeadToken {ws : List Str} (h : GoodTokens ws) :
    GoodTokens (dropLeadToken ws) := by
  intro t ht
  apply h
  rcases ws with _ | ⟨w, ws2⟩
  · rw [show dropLeadToken [] = [] from rfl] at ht
    cases ht
  · rw [show dropLeadToken (w :: ws2) = if w ∈ PREFIXES then ws2 else w :: ws2 from rfl] at ht
    by_cases hw : w ∈ PREFIXES
    · rw [if_pos hw] at ht
      exact List.mem_cons_of_mem _ ht
    · rwa [if_neg hw] at ht

/-- With `keep_prefixes = false`, `normalize` is the space-join of the
prefix-dropped fields of its fifth stage. -/
theorem normalize_false_eq (name : Str) :
    normalize name false = joinSpace (dropLeadToken (pySplit (normPre name))) := by
  unfold normalize
  by_cases hn : name = []
  · subst hn
    rfl
  · rw [if_neg hn]
    simp only [Bool.false_eq_true, if_false]
    exact clean_joinSpace (goodTokens_dropLeadToken (pySplit_good _))

/-- With `keep_prefixes = false`, `normalize` is idempotent exactly on
strings whose normalized form does not begin with another prefix token. -/
theorem normalize_idem_noKeep (name : Str)
    (h : headKept (pySplit (normalize name false)) = true) :
    normalize (normalize name false) false = normalize name false := by
  by_cases hy : normalize name false = []
  · rw [hy]
    rfl
  · conv_lhs => rw [normalize]
    rw [if_neg hy]
    simp only [Bool.false_eq_true, if_false]
    rw [normPre_fixes_normalized]
    have hws : pySplit (normalize name false) =
        dropLeadToken (pySplit (normPre name)) := by
      rw [normalize_false_eq]
      exact pySplit_joinSpace (goodTokens_dropLeadToken (pySplit_good _))
    rw [hws] at h ⊢
    have hdrop : dropLeadToken (dropLeadToken (pySplit (normPre name))) =
        dropLeadToken (pySplit (normPre name)) := by
      rcases hws2 : dropLeadToken (pySplit (normPre name)) with _ | ⟨w, ws2⟩
      · rfl
      · rw [hws2] at h
        simp only [headKept, Bool.not_eq_true] at h
        rw [show dropLeadToken (w :: ws2) = if w ∈ PREFIXES then ws2 else w :: ws2 from rfl]
        rw [if_neg (by simpa using h)]
    rw [hdrop, ← normalize_false_eq]
    exact normalize_clean name false

/-! ### Score bound lemmas -/

/-- A longest common subsequence is no longer than the left string. -/
theorem lcsLen_le_left : ∀ a b : Str, lcsLen a b ≤ a.length := by
  intro a b
  induction a, b using lcsLen.induct with
  | case1 x => simp [lcsLen]
  | case2 x hx => cases x <;> simp [lcsLen]
  | case3 as b bs ih =>
    rw [lcsLen, if_pos rfl]
    simp only [List.length_cons]
    omega
  | case4 a as b bs hne ih1 ih2 =>
    rw [lcsLen, if_neg hne]
    simp only [List.length_cons] at ih1 ih2 ⊢
    omega

/-- A longest common subsequence is no longer than the right string. -/
theorem lcsLen_le_right : ∀ a b : Str, lcsLen a b ≤ b.length := by
  intro a b
  induction a, b using lcsLen.induct with
  | case1 x => simp [lcsLen]
  | case2 x hx => cases x <;> simp [lcsLen]
  | case3 as b bs ih =>
    rw [lcsLen, if_pos rfl]
    simp only [List.length_cons]
    omega
  | case4 a as b bs hne ih1 ih2 =>
    rw [lcsLen, if_neg hne]
    simp only [List.length_cons] at ih1 ih2 ⊢
    omega

/-- The InDel similarity never exceeds 1. -/
theorem indelSim_le_one (a b : Str) : indelSim a b ≤ 1 := by
  unfold indelSim
  by_cases h : a.length + b.length = 0
  · rw [if_pos h]
  · rw [if_neg h]
    have hpos : 0 < a.length + b.length := Nat.pos_of_ne_zero h
    rw [div_le_one (by exact_mod_cast hpos)]
    have h1 : (lcsLen a b : ℚ) ≤ a.length := by exact_mod_cast lcsLen_le_left a b
    have h2 : (lcsLen a b : ℚ) ≤ b.length := by exact_mod_cast lcsLen_le_right a b
    linarith

/-- The token-sort score never exceeds 1. -/
theorem tokenSortScore_le_one (a b : Str) : tokenSortScore a b ≤ 1 := by
  unfold tokenSortScore
  by_cases h : a = [] ∨ b = []
  · rw [if_pos h]
    norm_num
  · rw [if_neg h]
    exact indelSim_le_one _ _

/-- The token-set score never exceeds 1. -/
theorem tokenSetScore_le_one (a b : Str) : tokenSetScore a b ≤ 1 := by
  unfold tokenSetScore
  by_cases h : a = [] ∨ b = []
  · rw [if_pos h]
    norm_num
  · rw [if_neg h]
    simp only [max_le_iff]
    exact ⟨indelSim_le_one _ _, indelSim_le_one _ _, indelSim_le_one _ _⟩

/-- The phonetic score never exceeds 1. -/
theorem phoneticScore_le_one (a b : Str) : phoneticScore a b ≤ 1 := by
  unfold phoneticScore
  by_cases h : a = [] ∨ b = []
  · rw [if_pos h]
    norm_num
  · rw [if_neg h]
    by_cases h2 : pySplit a = [] ∨ pySplit b = []
    · rw [if_pos h2]
      norm_num
    · rw [if_neg h2]
      by_cases h3 : (pySplit a).map metaphone = [] ∨ (pySplit b).map metaphone = []
      · rw [if_pos h3]
        norm_num
      · rw [if_neg h3]
        have hlen : (((pySplit a).map metaphone).filter
            (· ∈ (pySplit b).map metaphone)).length ≤
            max ((pySplit a).map metaphone).length ((pySplit b).map metaphone).length :=
          le_trans (List.length_filter_le _ _) (le_max_left _ _)
        have hpos : 0 < max ((pySplit a).map metaphone).length
            ((pySplit b).map metaphone).length := by
          rcases h3' : (pySplit a).map metaphone with _ | _
          · exact absurd (Or.inl h3') h3
          · simp
        rw [div_le_one (by exact_mod_cast hpos)]
        exact_mod_cast hlen

/-- The Levenshtein distance vanishes only on equal strings. -/
theorem levDist_eq_zero : ∀ a b : Str, levDist a b = 0 → a = b := by
  intro a b
  induction a, b using levDist.induct with
  | case1 x =>
    intro h
    rw [levDist] at h
    exact (List.length_eq_zero.1 h).symm
  | case2 x hx =>
    intro h
    cases x with
    | nil => rfl
    | cons c cs =>
      simp [levDist] at h
  | case3 as b bs ih =>
    intro hz
    rw [levDist, if_pos rfl] at hz
    rw [ih hz]
  | case4 a as b bs hne ih1 ih2 ih3 =>
    intro hz
    rw [levDist, if_neg hne] at hz
    omega

/-- The `calculate_levenshtein` never exceeds 1. -/
theorem calcLevenshtein_le_one (a b : Str) : calcLevenshtein a b ≤ 1 := by
  unfold calcLevenshtein
  by_cases h : a = [] ∨ b = []
  · rw [if_pos h]
    norm_num
  · rw [if_neg h]
    have hd : (0 : ℚ) ≤ (levDist a b : ℚ) / ((max a.length b.length : Nat) : ℚ) := by
      positivity
    linarith

/-- The `calculate_levenshtein` on distinct non-empty strings is strictly below
1. -/
theorem calcLevenshtein_lt_one {a b : Str} (ha : a ≠ []) (hb : b ≠ [])
    (hne : a ≠ b) : calcLevenshtein a b < 1 := by
  unfold calcLevenshtein
  rw [if_neg (by simp [ha, hb])]
  have hdist : 1 ≤ levDist a b :=
    Nat.one_le_iff_ne_zero.2 (fun h0 => hne (levDist_eq_zero a b h0))
  have hmax : 0 < max a.length b.length :=
    lt_of_lt_of_le (List.length_pos.2 ha) (le_max_left _ _)
  have hq : (0 : ℚ) < (levDist a b : ℚ) / ((max a.length b.length : Nat) : ℚ) := by
    apply div_pos
    · exact_mod_cast hdist
    · exact_mod_cast hmax
  linarith

/-- A successful `jwFindMatch` call preserves length and marks exactly one
new position. -/
theorem jwFindMatch_some {c : Char} {lo hi : Nat} :
    ∀ {flags : List (Char × Bool)} {j : Nat} {flags2 : List (Char × Bool)},
      jwFindMatch c lo hi j flags = some flags2 →
      flags2.length = flags.length ∧ countTrue flags2 = countTrue flags + 1 := by
  intro flags
  induction flags with
  | nil => intro j flags2 h; cases h
  | cons p rest ih =>
    intro j flags2 h
    rcases p with ⟨d, used⟩
    rw [jwFindMatch] at h
    by_cases h1 : hi < j
    · rw [if_pos h1] at h
      cases h
    · rw [if_neg h1] at h
      by_cases h2 : (decide (lo ≤ j) && !used && decide (d = c)) = true
      · rw [if_pos h2] at h
        cases h
        have hused : used = false := by
          rcases Bool.and_eq_true _ _ |>.mp h2 with ⟨h3, _⟩
          rcases Bool.and_eq_true _ _ |>.mp h3 with ⟨_, h4⟩
          simpa using h4
        subst hused
        constructor
        · simp
        · simp [countTrue]
      · rw [if_neg h2] at h
        rcases hrec : jwFindMatch c lo hi (j + 1) rest with _ | rest2
        · rw [hrec] at h
          cases h
        · rw [hrec] at h
          cases h
          rcases ih hrec with ⟨hl, hc⟩
          constructor
          · simp [hl]
          · cases used <;> simp [countTrue] at hc ⊢ <;> omega

/-- Shape facts about the Jaro matching pass: at most one match per
character of the first string, flag-list length preserved, and the used
count grows by the number of matches. -/
theorem jwMatchAll_spec (win : Nat) :
    ∀ (s : Str) (i : Nat) (flags : List (Char × Bool)),
      (jwMatchAll win i s flags).1.length ≤ s.length ∧
      (jwMatchAll win i s flags).2.length = flags.length ∧
      countTrue (jwMatchAll win i s flags).2 =
        countTrue flags + (jwMatchAll win i s flags).1.length := by
  intro s
  induction s with
  | nil => intro i flags; simp [jwMatchAll]
  | cons c cs ih =>
    intro i flags
    rw [jwMatchAll]
    rcases hfm : jwFindMatch c (i - win) (i + win) 0 flags with _ | flags2
    · simp only
      rcases ih (i + 1) flags with ⟨h1, h2, h3⟩
      exact ⟨Nat.le_succ_of_le h1, h2, h3⟩
    · simp only
      rcases ih (i + 1) flags2 with ⟨h1, h2, h3⟩
      rcases jwFindMatch_some hfm with ⟨hl, hc⟩
      refine ⟨by simpa using Nat.succ_le_succ h1, by rw [h2, hl], ?_⟩
      simp only [List.length_cons]
      rw [h3, hc]
      omega

/-- The initial Jaro flag list has no used positions. -/
theorem countTrue_init (b : Str) : countTrue (b.map (fun c => (c, false))) = 0 := by
  induction b with
  | nil => rfl
  | cons c rest ih => simp [countTrue, List.filter]

/-- The used count never exceeds the flag-list length. -/
theorem countTrue_le_length (flags : List (Char × Bool)) :
    countTrue flags ≤ flags.length :=
  List.length_filter_le _ _

/-- The Jaro similarity never exceeds 1. -/
theorem jaroSim_le_one (a b : Str) : jaroSim a b ≤ 1 := by
  unfold jaroSim
  by_cases h1 : a = [] ∧ b = []
  · rw [if_pos h1]
  · rw [if_neg h1]
    by_cases h2 : a = [] ∨ b = []
    · rw [if_pos h2]
      norm_num
    · rw [if_neg h2]
      by_cases h3 : a = b
      · rw [if_pos h3]
      · rw [if_neg h3]
        simp only
        set r := jwMatchAll (max a.length b.length / 2 - 1) 0 a
          (b.map (fun c => (c, false))) with hr
        have hspec := jwMatchAll_spec (max a.length b.length / 2 - 1) a 0
          (b.map (fun c => (c, false)))
        rw [← hr] at hspec
        by_cases hm : r.1.length = 0
        · rw [if_pos hm]
          norm_num
        · rw [if_neg hm]
          have ha : a ≠ [] := fun h => h2 (Or.inl h)
          have hb : b ≠ [] := fun h => h2 (Or.inr h)
          have hla : 0 < a.length := List.length_pos.2 ha
          have hlb : 0 < b.length := List.length_pos.2 hb
          rcases hspec with ⟨hm1, hm2, hm3⟩
          rw [countTrue_init] at hm3
          have hmb : r.1.length ≤ b.length := by
            have := countTrue_le_length r.2
            rw [hm3, hm2, List.length_map] at this
            omega
          have hmpos : 0 < r.1.length := Nat.pos_of_ne_zero hm
          have e1 : ((r.1.length : ℚ)) / (a.length : ℚ) ≤ 1 := by
            rw [div_le_one (by exact_mod_cast hla)]
            exact_mod_cast hm1
          have e2 : ((r.1.length : ℚ)) / (b.length : ℚ) ≤ 1 := by
            rw [div_le_one (by exact_mod_cast hlb)]
            exact_mod_cast hmb
          have e3 : ((r.1.length : ℚ) -
              (countDiff r.1 ((r.2.filter (·.2)).map (·.1)) : ℚ) / 2) /
              (r.1.length : ℚ) ≤ 1 := by
            rw [div_le_one (by exact_mod_cast hmpos)]
            have hd : (0 : ℚ) ≤ (countDiff r.1 ((r.2.filter (·.2)).map (·.1)) : ℚ) / 2 := by
              positivity
            linarith
          linarith

/-- The Jaro-Winkler similarity never exceeds 1. -/
theorem jaroWinklerSim_le_one (a b : Str) : jaroWinklerSim a b ≤ 1 := by
  unfold jaroWinklerSim
  simp only
  by_cases h : 7 / 10 < jaroSim a b
  · rw [if_pos h]
    have hj : jaroSim a b ≤ 1 := jaroSim_le_one a b
    have hk0 : (0 : ℚ) ≤ min ((sharedStart a b : ℚ)) 4 :=
      le_min (by positivity) (by norm_num)
    have hk4 : min ((sharedStart a b : ℚ)) 4 ≤ 4 := min_le_right _ _
    have h5 : min ((sharedStart a b : ℚ)) 4 * (1 / 10) * (1 - jaroSim a b) ≤
        1 * (1 - jaroSim a b) :=
      mul_le_mul_of_nonneg_right (by linarith) (by linarith)
    linarith
  · rw [if_neg h]
    exact jaroSim_le_one a b

/-- The `calculate_jaro_winkler` never exceeds 1. -/
theorem calcJaroWinkler_le_one (a b : Str) : calcJaroWinkler a b ≤ 1 := by
  unfold calcJaroWinkler
  by_cases h : a = [] ∨ b = []
  · rw [if_pos h]
    norm_num
  · rw [if_neg h]
    exact jaroWinklerSim_le_one a b

/-- The `calculate_jaro_winkler` of a non-empty string with itself is 1. -/
theorem calcJaroWinkler_self {a : Str} (h : a ≠ []) : calcJaroWinkler a a = 1 := by
  unfold calcJaroWinkler
  rw [if_neg (by simp [h])]
  unfold jaroWinklerSim
  have hj : jaroSim a a = 1 := by
    unfold jaroSim
    rw [if_neg (by simp [h]), if_neg (by simp [h]), if_pos rfl]
  rw [hj]
  norm_num

/-- Guard lemma: Jaro-Winkler scoring of an empty side is 0. -/
theorem calcJaroWinkler_zero {a b : Str} (h : a = [] ∨ b = []) :
    calcJaroWinkler a b = 0 := by
  unfold calcJaroWinkler
  rw [if_pos h]

/-- Guard lemma: Levenshtein scoring of an empty side is 0. -/
theorem calcLevenshtein_zero {a b : Str} (h : a = [] ∨ b = []) :
    calcLevenshtein a b = 0 := by
  unfold calcLevenshtein
  rw [if_pos h]

/-- Guard lemma: token-sort scoring of an empty side is 0. -/
theorem tokenSortScore_zero {a b : Str} (h : a = [] ∨ b = []) :
    tokenSortScore a b = 0 := by
  unfold tokenSortScore
  rw [if_pos h]

/-- Guard lemma: token-set scoring of an empty side is 0. -/
theorem tokenSetScore_zero {a b : Str} (h : a = [] ∨ b = []) :
    tokenSetScore a b = 0 := by
  unfold tokenSetScore
  rw [if_pos h]

/-- Guard lemma: phonetic scoring of an empty side is 0. -/
theorem phoneticScore_zero {a b : Str} (h : a = [] ∨ b = []) :
    phoneticScore a b = 0 := by
  unfold phoneticScore
  rw [if_pos h]

/-- The `MatchScorer.score` under the default weights satisfies `ScoreP`. -/
theorem score_default_P (q t : Str) (norm : Bool) :
    ScoreP ((MatchScorer.mkScorer none).score q t norm) := by
  unfold MatchScorer.score
  set q2 := if norm then normalize q false else q with hq2
  set t2 := if norm then normalize t false else t with ht2
  by_cases hex : q2.map pyLower = t2.map pyLower
  · rw [if_pos hex]
    exact ⟨le_refl 1, fun _ => rfl⟩
  · rw [if_neg hex]
    have hw : (MatchScorer.mkScorer none).weights = DEFAULT_WEIGHTS := rfl
    simp only [hw]
    have hlt : DEFAULT_WEIGHTS.jaro_winkler * calcJaroWinkler q2 t2 +
        DEFAULT_WEIGHTS.levenshtein * calcLevenshtein q2 t2 +
        DEFAULT_WEIGHTS.token_sort * tokenSortScore q2 t2 +
        DEFAULT_WEIGHTS.token_set * tokenSetScore q2 t2 +
        DEFAULT_WEIGHTS.phonetic * phoneticScore q2 t2 < 1 := by
      have hwj : DEFAULT_WEIGHTS.jaro_winkler = 3 / 10 := rfl
      have hwl : DEFAULT_WEIGHTS.levenshtein = 1 / 5 := rfl
      have hwts : DEFAULT_WEIGHTS.token_sort = 1 / 4 := rfl
      have hwtset : DEFAULT_WEIGHTS.token_set = 3 / 20 := rfl
      have hwph : DEFAULT_WEIGHTS.phonetic = 1 / 10 := rfl
      rw [hwj, hwl, hwts, hwtset, hwph]
      by_cases hq0 : q2 = []
      · rw [calcJaroWinkler_zero (Or.inl hq0), calcLevenshtein_zero (Or.inl hq0),
          tokenSortScore_zero (Or.inl hq0), tokenSetScore_zero (Or.inl hq0),
          phoneticScore_zero (Or.inl hq0)]
        norm_num
      · by_cases ht0 : t2 = []
        · rw [calcJaroWinkler_zero (Or.inr ht0), calcLevenshtein_zero (Or.inr ht0),
            tokenSortScore_zero (Or.inr ht0), tokenSetScore_zero (Or.inr ht0),
            phoneticScore_zero (Or.inr ht0)]
          norm_num
        · have hne : q2 ≠ t2 := fun he => hex (by rw [he])
          have h1 := calcJaroWinkler_le_one q2 t2
          have h2 := calcLevenshtein_lt_one hq0 ht0 hne
          have h3 := tokenSortScore_le_one q2 t2
          have h4 := tokenSetScore_le_one q2 t2
          have h5 := phoneticScore_le_one q2 t2
          linarith
    exact ⟨le_of_lt hlt, fun he => absurd he (ne_of_lt hlt)⟩

/-- The exact short-circuit of `MatchScorer.score`. -/
theorem score_exact_of_lower_eq {sc : MatchScorer} {q t : Str} {norm : Bool}
    (h : (if norm then normalize q false else q).map pyLower =
      (if norm then normalize t false else t).map pyLower) :
    sc.score q t norm =
      { overall_score := 1, jaro_winkler := 1, levenshtein := 1, token_sort := 1,
        token_set := 1, phonetic := 1, exact_match := true,
        algorithm_used := "exact".toList } := by
  unfold MatchScorer.score
  rw [if_pos h]

/-- One `score_with_variations` comparison step preserves `ScoreP` (default
weights). -/
theorem swvStep_P {b : Option MatchScore} {qv tv : Str}
    (hb : ∀ s, b = some s → ScoreP s) :
    ∀ s, swvStep (MatchScorer.mkScorer none) b qv tv = some s → ScoreP s := by
  intro s h
  unfold swvStep at h
  rcases b with _ | bs
  · simp only at h
    cases h
    exact score_default_P qv tv false
  · simp only at h
    by_cases hgt : ((MatchScorer.mkScorer none).score qv tv false).overall_score >
        bs.overall_score
    · rw [if_pos hgt] at h
      cases h
      exact score_default_P qv tv false
    · rw [if_neg hgt] at h
      cases h
      exact hb _ rfl

/-- One comparison step never lowers the incumbent score. -/
theorem swvStep_mono {sc : MatchScorer} {b : Option MatchScore} {qv tv : Str}
    {s1 : MatchScore} (hb : b = some s1) :
    ∃ s, swvStep sc b qv tv = some s ∧ s1.overall_score ≤ s.overall_score := by
  subst hb
  unfold swvStep
  simp only
  by_cases hgt : (sc.score qv tv false).overall_score > s1.overall_score
  · rw [if_pos hgt]
    exact ⟨_, rfl, le_of_lt hgt⟩
  · rw [if_neg hgt]
    exact ⟨s1, rfl, le_refl _⟩

/-- One comparison step reaches at least the pair's own score. -/
theorem swvStep_reach (sc : MatchScorer) (b : Option MatchScore) (qv tv : Str) :
    ∃ s, swvStep sc b qv tv = some s ∧
      (sc.score qv tv false).overall_score ≤ s.overall_score := by
  unfold swvStep
  rcases b with _ | bs
  · exact ⟨_, rfl, le_refl _⟩
  · simp only
    by_cases hgt : (sc.score qv tv false).overall_score > bs.overall_score
    · rw [if_pos hgt]
      exact ⟨_, rfl, le_refl _⟩
    · rw [if_neg hgt]
      exact ⟨bs, rfl, not_lt.1 hgt⟩

/-- The inner variation loop preserves `ScoreP`. -/
theorem innerFold_P (qv : Str) :
    ∀ (ts : List Str) (b : Option MatchScore),
      (∀ s, b = some s → ScoreP s) →
      ∀ s, ts.foldl (fun b tv => swvStep (MatchScorer.mkScorer none) b qv tv) b = some s →
        ScoreP s := by
  intro ts
  induction ts with
  | nil => intro b hb s h; exact hb s h
  | cons t ts2 ih =>
    intro b hb s h
    exact ih _ (swvStep_P hb) s h

/-- The inner variation loop never lowers the incumbent score. -/
theorem innerFold_mono (sc : MatchScorer) (qv : Str) :
    ∀ (ts : List Str) (b : Option MatchScore) (s1 : MatchScore), b = some s1 →
      ∃ s, ts.foldl (fun b tv => swvStep sc b qv tv) b = some s ∧
        s1.overall_score ≤ s.overall_score := by
  intro ts
  induction ts with
  | nil => intro b s1 hb; exact ⟨s1, by simpa using hb, le_refl _⟩
  | cons t ts2 ih =>
    intro b s1 hb
    rcases @swvStep_mono sc b qv t s1 hb with ⟨s2, hs2, hle⟩
    rcases ih _ s2 hs2 with ⟨s, hs, hle2⟩
    refine ⟨s, ?_, le_trans hle hle2⟩
    simp only [List.foldl_cons]
    rw [hs2]
    rwa [hs2] at hs

/-- The inner variation loop reaches every scored pair. -/
theorem innerFold_reach (sc : MatchScorer) (qv tv : Str) :
    ∀ (ts : List Str), tv ∈ ts → ∀ (b : Option MatchScore),
      ∃ s, ts.foldl (fun b tv => swvStep sc b qv tv) b = some s ∧
        (sc.score qv tv false).overall_score ≤ s.overall_score := by
  intro ts
  induction ts with
  | nil => intro h; cases h
  | cons t ts2 ih =>
    intro htv b
    rcases List.mem_cons.1 htv with rfl | h2
    · rcases swvStep_reach sc b qv tv with ⟨s2, hs2, hle⟩
      rcases innerFold_mono sc qv ts2 _ s2 hs2 with ⟨s, hs, hle2⟩
      refine ⟨s, ?_, le_trans hle hle2⟩
      simp only [List.foldl_cons]
      rw [hs2]
      rwa [hs2] at hs
    · exact ih h2 _

/-- The outer variation loop preserves `ScoreP`. -/
theorem outerFold_P (ts : List Str) :
    ∀ (qs : List Str) (b : Option MatchScore),
      (∀ s, b = some s → ScoreP s) →
      ∀ s, qs.foldl (fun b qv =>
          ts.foldl (fun b tv => swvStep (MatchScorer.mkScorer none) b qv tv) b) b = some s →
        ScoreP s := by
  intro qs
  induction qs with
  | nil => intro b hb s h; exact hb s h
  | cons q qs2 ih =>
    intro b hb s h
    exact ih _ (fun s2 h2 => innerFold_P q ts b hb s2 h2) s h

/-- The outer variation loop never lowers the incumbent score. -/
theorem outerFold_mono (sc : MatchScorer) (ts : List Str) :
    ∀ (qs : List Str) (b : Option MatchScore) (s1 : MatchScore), b = some s1 →
      ∃ s, qs.foldl (fun b qv =>
          ts.foldl (fun b tv => swvStep sc b qv tv) b) b = some s ∧
        s1.overall_score ≤ s.overall_score := by
  intro qs
  induction qs with
  | nil => intro b s1 hb; exact ⟨s1, by simpa using hb, le_refl _⟩
  | cons q qs2 ih =>
    intro b s1 hb
    rcases innerFold_mono sc q ts b s1 hb with ⟨s2, hs2, hle⟩
    rcases ih _ s2 hs2 with ⟨s, hs, hle2⟩
    refine ⟨s, ?_, le_trans hle hle2⟩
    simp only [List.foldl_cons]
    rw [hs2]
    rwa [hs2] at hs

/-- The outer variation loop reaches every pair of the Cartesian product. -/
theorem outerFold_reach (sc : MatchScorer) (ts : List Str) (qv tv : Str)
    (htv : tv ∈ ts) :
    ∀ (qs : List Str), qv ∈ qs → ∀ (b : Option MatchScore),
      ∃ s, qs.foldl (fun b qv =>
          ts.foldl (fun b tv => swvStep sc b qv tv) b) b = some s ∧
        (sc.score qv tv false).overall_score ≤ s.overall_score := by
  intro qs
  induction qs with
  | nil => intro h; cases h
  | cons q qs2 ih =>
    intro hqv b
    rcases List.mem_cons.1 hqv with rfl | h2
    · rcases innerFold_reach sc qv tv ts htv b with ⟨s2, hs2, hle⟩
      rcases outerFold_mono sc ts qs2 _ s2 hs2 with ⟨s, hs, hle2⟩
      refine ⟨s, ?_, le_trans hle hle2⟩
      simp only [List.foldl_cons]
      rw [hs2]
      rwa [hs2] at hs
    · exact ih h2 _

/-- The `score_with_variations` under default weights satisfies `ScoreP`. -/
theorem swv_P (q t : Str) :
    ScoreP ((MatchScorer.mkScorer none).scoreWithVariations q t) := by
  unfold MatchScorer.scoreWithVariations
  simp only
  rcases hbest : (generateVariations q).foldl (fun b qv =>
      (generateVariations t).foldl
        (fun b tv => swvStep (MatchScorer.mkScorer none) b qv tv) b) none with _ | s
  · exact score_default_P q t true
  · exact outerFold_P (generateVariations t) (generateVariations q) none
      (fun s2 h2 => by cases h2) s hbest

/-- The `addVar` only extends the accumulated list. -/
theorem subset_addVar (l : List Str) (s : Str) : l ⊆ addVar l s := by
  unfold addVar
  by_cases h : s ∈ l
  · rw [if_pos h]
    exact List.Subset.refl _
  · rw [if_neg h]
    exact List.subset_append_left _ _

/-- The `addVar` puts the new string in the accumulated list. -/
theorem mem_addVar_self (l : List Str) (s : Str) : s ∈ addVar l s := by
  unfold addVar
  by_cases h : s ∈ l
  · rwa [if_pos h]
  · rw [if_neg h]
    exact List.mem_append_right _ (List.mem_singleton_self s)

/-- A fold whose steps only extend the accumulator extends it overall. -/
theorem subset_foldl {β : Type} (g : List Str → β → List Str)
    (hg : ∀ acc x, acc ⊆ g acc x) :
    ∀ (l : List β) (acc : List Str), acc ⊆ l.foldl g acc := by
  intro l
  induction l with
  | nil => intro acc; exact List.Subset.refl _
  | cons x xs ih =>
    intro acc
    exact (hg acc x).trans (ih (g acc x))

/-- The substitution loop of `generate_variations` only extends the
accumulator. -/
theorem subset_variationSubsts (words : List Str) (acc : List Str) :
    acc ⊆ variationSubsts words acc := by
  unfold variationSubsts
  apply subset_foldl
  intro acc2 i
  rcases hm : (words.get? i).bind variationMap with _ | std
  · simp only [hm]
    exact List.Subset.refl _
  · simp only [hm]
    refine (subset_addVar acc2 (joinSpace (words.set i std))).trans ?_
    apply subset_foldl
    intro acc3 p
    by_cases hp : std = p.1
    · rw [if_pos hp]
      apply subset_foldl
      intro acc4 var
      exact subset_addVar _ _
    · rw [if_neg hp]
      exact List.Subset.refl _

/-- The prefix-free normalization of a name is one of its generated
variations. -/
theorem mem_generateVariations_normFalse (name : Str) :
    normalize name false ∈ generateVariations name := by
  unfold generateVariations
  simp only
  apply subset_variationSubsts
  have h1 : normalize name false ∈
      addVar (addVar [] (normalize name true)) (normalize name false) :=
    mem_addVar_self _ _
  by_cases hlen : 2 ≤ (pySplit (normalize name true)).length
  · rw [if_pos hlen]
    exact (subset_addVar _ _).trans (subset_addVar _ _) h1
  · rw [if_neg hlen]
    exact h1

/-- The `addVar` preserves duplicate-freeness. -/
theorem nodup_addVar {l : List Str} (s : Str) (h : l.Nodup) : (addVar l s).Nodup := by
  unfold addVar
  by_cases hs : s ∈ l
  · rwa [if_pos hs]
  · rw [if_neg hs]
    rw [List.nodup_append]
    exact ⟨h, List.nodup_singleton s, by simpa using hs⟩

/-- A fold of duplicate-preserving steps preserves duplicate-freeness. -/
theorem nodup_foldl {β : Type} (g : List Str → β → List Str)
    (hg : ∀ acc x, acc.Nodup → (g acc x).Nodup) :
    ∀ (l : List β) (acc : List Str), acc.Nodup → (l.foldl g acc).Nodup := by
  intro l
  induction l with
  | nil => intro acc h; exact h
  | cons x xs ih =>
    intro acc h
    exact ih (g acc x) (hg acc x h)

/-- The list built by `generate_variations` has no duplicates: the embedding
of Python set semantics. -/
theorem nodup_generateVariations (name : Str) :
    (generateVariations name).Nodup := by
  unfold generateVariations
  simp only
  have hstep : ∀ (acc : List Str), acc.Nodup →
      (variationSubsts (pySplit (normalize name true)) acc).Nodup := by
    intro acc h
    unfold variationSubsts
    apply nodup_foldl _ _ _ _ h
    intro acc2 i h2
    rcases hm : (pySplit (normalize name true)).get? i |>.bind variationMap with _ | std
    · simpa only [hm] using h2
    · simp only [hm]
      apply nodup_foldl
      · intro acc3 p h3
        by_cases hp : std = p.1
        · rw [if_pos hp]
          apply nodup_foldl _ _ _ _ h3
          intro acc4 var h4
          exact nodup_addVar _ h4
        · rwa [if_neg hp]
      · exact nodup_addVar _ h2
  apply hstep
  by_cases hlen : 2 ≤ (pySplit (normalize name true)).length
  · rw [if_pos hlen]
    exact nodup_addVar _ (nodup_addVar _ (nodup_addVar _ (nodup_addVar _ List.nodup_nil)))
  · rw [if_neg hlen]
    exact nodup_addVar _ (nodup_addVar _ List.nodup_nil)

/-- When two names share their prefix-free normalization,
`score_with_variations` returns a perfect exact score. -/
theorem swv_norm_eq {q t : Str} (h : normalize q false = normalize t false) :
    ((MatchScorer.mkScorer none).scoreWithVariations q t).overall_score = 1 ∧
    ((MatchScorer.mkScorer none).scoreWithVariations q t).exact_match = true := by
  have hq := mem_generateVariations_normFalse q
  have ht := mem_generateVariations_normFalse t
  have hscore : ((MatchScorer.mkScorer none).score (normalize q false)
      (normalize t false) false).overall_score = 1 := by
    rw [@score_exact_of_lower_eq (MatchScorer.mkScorer none) (normalize q false)
      (normalize t false) false (by rw [h])]
  rcases outerFold_reach (MatchScorer.mkScorer none) (generateVariations t)
    (normalize q false) (normalize t false) ht (generateVariations q) hq none with
    ⟨s, hs, hle⟩
  have hP : ScoreP s :=
    outerFold_P (generateVariations t) (generateVariations q) none
      (fun s2 h2 => by cases h2) s hs
  have hone : s.overall_score = 1 := le_antisymm hP.1 (hscore ▸ hle)
  unfold MatchScorer.scoreWithVariations
  simp only
  rw [hs]
  exact ⟨hone, hP.2 hone⟩

/-- Folding a clamped addition into one clamp. -/
theorem min_clamp {b y : ℚ} (hy : 0 ≤ y) : min 1 (min 1 b + y) = min 1 (b + y) := by
  rcases le_total b 1 with h | h
  · rw [min_eq_right h]
  · rw [min_eq_left h]
    rw [min_eq_left (by linarith), min_eq_left (by linarith)]

/-- The `DOB_BOOST` is non-negative. -/
theorem DOB_BOOST_nonneg : (0 : ℚ) ≤ DOB_BOOST := by norm_num [DOB_BOOST]

/-- The `NATIONALITY_BOOST` is non-negative. -/
theorem NATIONALITY_BOOST_nonneg : (0 : ℚ) ≤ NATIONALITY_BOOST := by
  norm_num [NATIONALITY_BOOST]

/-- The `ID_BOOST` is non-negative. -/
theorem ID_BOOST_nonneg : (0 : ℚ) ≤ ID_BOOST := by norm_num [ID_BOOST]

/-- The sequential clamping of `EnhancedScorer.score` equals a single clamp
of the boost sum. -/
theorem clamp_formula (o : ℚ) (bd bn bi : Bool) (ho : o ≤ 1) :
    (if bi then
        min 1 ((if bn then
            min 1 ((if bd then min 1 (o + DOB_BOOST) else o) + NATIONALITY_BOOST)
          else (if bd then min 1 (o + DOB_BOOST) else o)) + ID_BOOST)
      else (if bn then
            min 1 ((if bd then min 1 (o + DOB_BOOST) else o) + NATIONALITY_BOOST)
          else (if bd then min 1 (o + DOB_BOOST) else o))) =
    min 1 (o + ((if bd then DOB_BOOST else 0) + (if bn then NATIONALITY_BOOST else 0) +
      (if bi then ID_BOOST else 0))) := by
  have hD := DOB_BOOST_nonneg
  have hN := NATIONALITY_BOOST_nonneg
  have hI := ID_BOOST_nonneg
  cases bd <;> cases bn <;> cases bi <;>
    simp only [if_true, Bool.false_eq_true, if_false]
  · norm_num
    exact ho
  · congr 1
    ring
  · congr 1
    ring
  · rw [min_clamp hI]
    congr 1
    ring
  · congr 1
    ring
  · rw [min_clamp hI]
    congr 1
    ring
  · rw [min_clamp hN]
    congr 1
    ring
  · rw [min_clamp hI, add_assoc, min_clamp (by linarith : (0:ℚ) ≤ NATIONALITY_BOOST + ID_BOOST)]
    congr 1
    ring

/-- The combined score of `EnhancedScorer.score` is the single-clamp boost
formula of the specification. -/
theorem enh_combined_eq (qn tn : Str) (qd td qna tna qi ti : Option Str) :
    (enhancedScore qn tn qd td qna tna qi ti).combined_score =
      min 1 ((enhancedScore qn tn qd td qna tna qi ti).name_score.overall_score +
        ((if (enhancedScore qn tn qd td qna tna qi ti).dob_match then DOB_BOOST else 0) +
         (if (enhancedScore qn tn qd td qna tna qi ti).nationality_match then
            NATIONALITY_BOOST else 0) +
         (if (enhancedScore qn tn qd td qna tna qi ti).id_match then ID_BOOST else 0))) := by
  unfold enhancedScore
  simp only
  exact clamp_formula _ (checkDobMatch qd td) (checkNationalityMatch qna tna)
    (checkIdMatch qi ti) (swv_P qn tn).1

/-- The combined score never exceeds 1. -/
theorem enh_combined_le_one (qn tn : Str) (qd td qna tna qi ti : Option Str) :
    (enhancedScore qn tn qd td qna tna qi ti).combined_score ≤ 1 := by
  rw [enh_combined_eq]
  exact min_le_left _ _

/-- A perfect name score yields a perfect combined score whatever the
attribute flags. -/
theorem enh_combined_one {qn tn : Str} {qd td qna tna qi ti : Option Str}
    (h : (enhancedScore qn tn qd td qna tna qi ti).name_score.overall_score = 1) :
    (enhancedScore qn tn qd td qna tna qi ti).combined_score = 1 := by
  rw [enh_combined_eq, h]
  have h1 : (0:ℚ) ≤ if (enhancedScore qn tn qd td qna tna qi ti).dob_match then
      DOB_BOOST else 0 := by
    split
    · exact DOB_BOOST_nonneg
    · exact le_refl 0
  have h2 : (0:ℚ) ≤ if (enhancedScore qn tn qd td qna tna qi ti).nationality_match then
      NATIONALITY_BOOST else 0 := by
    split
    · exact NATIONALITY_BOOST_nonneg
    · exact le_refl 0
  have h3 : (0:ℚ) ≤ if (enhancedScore qn tn qd td qna tna qi ti).id_match then
      ID_BOOST else 0 := by
    split
    · exact ID_BOOST_nonneg
    · exact le_refl 0
  rw [min_eq_left (by linarith)]

/-- The name score of `EnhancedScorer.score` is the variation-aware score of
the two names. -/
theorem enh_name_score (qn tn : Str) (qd td qna tna qi ti : Option Str) :
    (enhancedScore qn tn qd td qna tna qi ti).name_score =
      (MatchScorer.mkScorer none).scoreWithVariations qn tn := rfl

/-- A missing date of birth on either side disables the DOB flag. -/
theorem enh_dob_missing {qn tn : Str} {qd td qna tna qi ti : Option Str}
    (h : strFalsy qd = true ∨ strFalsy td = true) :
    (enhancedScore qn tn qd td qna tna qi ti).dob_match = false := by
  show checkDobMatch qd td = false
  unfold checkDobMatch
  rw [if_pos (by simpa using h)]

/-- A missing nationality on either side disables the nationality flag. -/
theorem enh_nat_missing {qn tn : Str} {qd td qna tna qi ti : Option Str}
    (h : strFalsy qna = true ∨ strFalsy tna = true) :
    (enhancedScore qn tn qd td qna tna qi ti).nationality_match = false := by
  show checkNationalityMatch qna tna = false
  unfold checkNationalityMatch
  rw [if_pos (by simpa using h)]

/-- A missing identifier on either side disables the identifier flag. -/
theorem enh_id_missing {qn tn : Str} {qd td qna tna qi ti : Option Str}
    (h : strFalsy qi = true ∨ strFalsy ti = true) :
    (enhancedScore qn tn qd td qna tna qi ti).id_match = false := by
  show checkIdMatch qi ti = false
  unfold checkIdMatch
  rw [if_pos (by simpa using h)]

/-- Names with equal prefix-free normalizations produce a perfect, exact
enhanced score. -/
theorem enh_of_norm_eq {qn tn : Str} (qd td qna tna qi ti : Option Str)
    (h : normalize qn false = normalize tn false) :
    (enhancedScore qn tn qd td qna tna qi ti).name_score.overall_score = 1 ∧
    (enhancedScore qn tn qd td qna tna qi ti).name_score.exact_match = true ∧
    (enhancedScore qn tn qd td qna tna qi ti).combined_score = 1 := by
  rcases swv_norm_eq h with ⟨h1, h2⟩
  rw [enh_name_score]
  exact ⟨h1, h2, enh_combined_one (by rw [enh_name_score]; exact h1)⟩

/-- When the primary name already scores a combined 1, no alias can strictly
beat it: `entryBest` keeps the primary. -/
theorem entryBest_of_primary_one {cfg : ScreeningMatcher} {cand : ScreeningCandidate}
    {e : SanctionCandidate}
    (h1 : (scoreAgainst cand e e.primary_name).combined_score = 1) :
    entryBest cfg cand e = (scoreAgainst cand e e.primary_name, e.primary_name, false) := by
  unfold entryBest
  have hfold : ∀ (as : List Str) (acc : EnhancedMatchResult × Str × Bool),
      acc.1.combined_score = 1 →
      as.foldl (fun best a =>
        let s := scoreAgainst cand e a
        if s.combined_score > best.1.combined_score then (s, a, true) else best) acc = acc := by
    intro as
    induction as with
    | nil => intro acc hacc; rfl
    | cons a as2 ih =>
      intro acc hacc
      have hle : (scoreAgainst cand e a).combined_score ≤ 1 :=
        enh_combined_le_one _ _ _ _ _ _ _ _
      have hnot : ¬((scoreAgainst cand e a).combined_score > acc.1.combined_score) := by
        rw [hacc]
        exact not_lt.2 hle
      simp only [List.foldl_cons, if_neg hnot]
      exact ih acc hacc
  cases hia : cfg.include_aliases
  · simp only [Bool.false_eq_true, if_false]
  · simp only [if_true]
    exact hfold e.aliases _ h1

/-- The quick filter accepts a string against itself whenever its aggressive
normalization is non-empty and the threshold is at most 1. -/
theorem quickFilter_self {q : Str} (h : normalizeForMatching q ≠ []) {th : ℚ}
    (hth : th ≤ 1) : MatchScorer.quickFilter q q (th * (7 / 10)) = true := by
  unfold MatchScorer.quickFilter
  simp only
  have hlen : 0 < (normalizeForMatching q).length := List.length_pos.2 h
  rw [if_neg (by simpa using Nat.pos_iff_ne_zero.1 hlen)]
  rw [if_neg (by
    rw [min_self, max_self]
    rw [div_self (by exact_mod_cast Nat.pos_iff_ne_zero.1 hlen)]
    norm_num)]
  rw [calcJaroWinkler_self h]
  rw [decide_eq_true_eq]
  linarith

/-- Candidates whose normalized name equals the entry's normalized primary
name pass the pre-filter (given a usable aggressive normalization). -/
theorem passesPrefilter_of_norm_eq {cfg : ScreeningMatcher} {cand : ScreeningCandidate}
    {e : SanctionCandidate} {th : ℚ}
    (hn : cand.normalizedName = e.normalizedName)
    (hnfm : normalizeForMatching cand.normalizedName ≠ [])
    (hth : th ≤ 1) : passesPrefilter cfg cand th e = true := by
  unfold passesPrefilter
  rw [← hn, quickFilter_self hnfm hth]
  rfl

/-- What a produced match of `processEntry` satisfies: threshold reached and
reference to the processed entry. -/
theorem processEntry_some {cfg : ScreeningMatcher} {cand : ScreeningCandidate}
    {th : ℚ} {e : SanctionCandidate} {m : MatchResult}
    (h : processEntry cfg cand th e = some m) :
    th ≤ m.score ∧ m.sanction_candidate = e ∧
      m.score_details = (entryBest cfg cand e).1 := by
  unfold processEntry at h
  cases hpf : passesPrefilter cfg cand th e
  · rw [hpf] at h
    simp at h
  · rw [hpf] at h
    simp only [Bool.not_true, Bool.false_eq_true, if_false] at h
    by_cases hge : (entryBest cfg cand e).1.combined_score ≥ th
    · rw [if_pos hge] at h
      cases h
      exact ⟨hge, rfl, rfl⟩
    · rw [if_neg hge] at h
      cases h

/-- The `processEntry` on an entry whose normalized primary equals the
candidate's normalized name returns the exact primary match. -/
theorem processEntry_exact {cfg : ScreeningMatcher} {cand : ScreeningCandidate}
    {e : SanctionCandidate} {th : ℚ}
    (hn : normalize cand.name false = normalize e.primary_name false)
    (hnfm : normalizeForMatching cand.normalizedName ≠ [])
    (hth : th ≤ 1) :
    processEntry cfg cand th e =
      some { sanction_candidate := e, matched_name := e.primary_name,
             is_alias_match := false,
             score_details := scoreAgainst cand e e.primary_name } ∧
    (scoreAgainst cand e e.primary_name).combined_score = 1 ∧
    (scoreAgainst cand e e.primary_name).name_score.exact_match = true := by
  have henh := @enh_of_norm_eq cand.name e.primary_name
    cand.date_of_birth e.date_of_birth cand.nationality e.nationality
    (if strFalsy cand.national_id then cand.passport_number else cand.national_id)
    e.national_id hn
  have hcomb : (scoreAgainst cand e e.primary_name).combined_score = 1 := henh.2.2
  have hexact : (scoreAgainst cand e e.primary_name).name_score.exact_match = true :=
    henh.2.1
  refine ⟨?_, hcomb, hexact⟩
  unfold processEntry
  rw [passesPrefilter_of_norm_eq (by exact hn) hnfm hth]
  simp only [Bool.not_true, Bool.false_eq_true, if_false]
  rw [entryBest_of_primary_one hcomb]
  rw [if_pos (by rw [hcomb]; exact hth)]

/-- Membership in a stable insertion. -/
theorem mem_insertByScore {m a : MatchResult} :
    ∀ {l : List MatchResult}, a ∈ insertByScore l m ↔ a = m ∨ a ∈ l := by
  intro l
  induction l with
  | nil => simp [insertByScore]
  | cons x xs ih =>
    unfold insertByScore
    by_cases hx : x.score ≥ m.score
    · rw [if_pos hx]
      simp only [List.mem_cons, ih]
      tauto
    · rw [if_neg hx]
      simp only [List.mem_cons]

/-- A stable insertion grows the length by one. -/
theorem length_insertByScore (m : MatchResult) :
    ∀ (l : List MatchResult), (insertByScore l m).length = l.length + 1 := by
  intro l
  induction l with
  | nil => rfl
  | cons x xs ih =>
    unfold insertByScore
    by_cases hx : x.score ≥ m.score
    · rw [if_pos hx]
      simp only [List.length_cons, ih]
    · rw [if_neg hx]
      simp only [List.length_cons]

/-- Stable insertion preserves descending pairwise order. -/
theorem pairwise_insertByScore {m : MatchResult} :
    ∀ {l : List MatchResult},
      l.Pairwise (fun x y => y.score ≤ x.score) →
      (insertByScore l m).Pairwise (fun x y => y.score ≤ x.score) := by
  intro l
  induction l with
  | nil => intro _; simp [insertByScore]
  | cons x xs ih =>
    intro h
    rcases List.pairwise_cons.1 h with ⟨hx, hxs⟩
    unfold insertByScore
    by_cases hge : x.score ≥ m.score
    · rw [if_pos hge]
      rw [List.pairwise_cons]
      refine ⟨?_, ih hxs⟩
      intro a ha
      rcases mem_insertByScore.1 ha with rfl | ha2
      · exact hge
      · exact hx a ha2
    · rw [if_neg hge]
      rw [List.pairwise_cons]
      refine ⟨?_, h⟩
      intro a ha
      rcases List.mem_cons.1 ha with rfl | ha2
      · exact le_of_not_ge hge
      · exact le_trans (hx a ha2) (le_of_not_ge hge)

/-- Membership in the stable sort. -/
theorem mem_sortByScoreDesc {a : MatchResult} :
    ∀ (l : List MatchResult) (acc : List MatchResult),
      (a ∈ l.foldl insertByScore acc ↔ a ∈ acc ∨ a ∈ l) := by
  intro l
  induction l with
  | nil => intro acc; simp
  | cons x xs ih =>
    intro acc
    rw [List.foldl_cons, ih]
    rw [mem_insertByScore]
    simp only [List.mem_cons]
    tauto

/-- The stable sort preserves length. -/
theorem length_sortByScoreDesc :
    ∀ (l : List MatchResult) (acc : List MatchResult),
      (l.foldl insertByScore acc).length = acc.length + l.length := by
  intro l
  induction l with
  | nil => intro acc; simp
  | cons x xs ih =>
    intro acc
    rw [List.foldl_cons, ih, length_insertByScore]
    simp only [List.length_cons]
    omega

/-- The stable sort is descending by combined score. -/
theorem pairwise_sortByScoreDesc :
    ∀ (l : List MatchResult) (acc : List MatchResult),
      acc.Pairwise (fun x y => y.score ≤ x.score) →
      (l.foldl insertByScore acc).Pairwise (fun x y => y.score ≤ x.score) := by
  intro l
  induction l with
  | nil => intro acc h; exact h
  | cons x xs ih =>
    intro acc h
    rw [List.foldl_cons]
    exact ih _ (pairwise_insertByScore h)

/-- Every returned match of `screen` arises from `processEntry` on some
corpus entry. -/
theorem screen_matches_from_processEntry {cfg : ScreeningMatcher}
    {cand : ScreeningCandidate} {entries : List SanctionCandidate}
    {th : Option ℚ} {rid : Str} {m : MatchResult}
    (h : m ∈ (screen cfg cand entries th rid).matchList) :
    ∃ e ∈ entries, processEntry cfg cand (effectiveThreshold cfg th) e = some m := by
  unfold screen at h
  simp only at h
  have h2 : m ∈ sortByScoreDesc (entries.filterMap
      (processEntry cfg cand (effectiveThreshold cfg th))) :=
    List.mem_of_mem_take h
  have h3 : m ∈ entries.filterMap (processEntry cfg cand (effectiveThreshold cfg th)) := by
    have := (mem_sortByScoreDesc _ []).1 h2
    simpa using this
  exact List.mem_filterMap.1 h3

/-- Threshold soundness at the `screen` level. -/
theorem screen_threshold_sound {cfg : ScreeningMatcher} {cand : ScreeningCandidate}
    {entries : List SanctionCandidate} {th : Option ℚ} {rid : Str} {m : MatchResult}
    (h : m ∈ (screen cfg cand entries th rid).matchList) :
    effectiveThreshold cfg th ≤ m.score := by
  rcases screen_matches_from_processEntry h with ⟨e, _, hpe⟩
  exact (processEntry_some hpe).1

/-- The matches of a `screen` response are pairwise descending by combined
score. -/
theorem screen_sorted (cfg : ScreeningMatcher) (cand : ScreeningCandidate)
    (entries : List SanctionCandidate) (th : Option ℚ) (rid : Str) :
    ((screen cfg cand entries th rid).matchList).Pairwise
      (fun a b => b.score ≤ a.score) := by
  unfold screen
  simp only
  exact (pairwise_sortByScoreDesc _ [] (by simp)).sublist (List.take_sublist _ _)

/-- Exactness at the `screen` level, under the conditions that actually make
it hold in the code: a usable aggressive normalization, an effective
threshold of at most 1, and a corpus not exceeding the result cap. -/
theorem screen_exact_contains {cfg : ScreeningMatcher} {cand : ScreeningCandidate}
    {entries : List SanctionCandidate} {th : Option ℚ} {rid : Str}
    {e : SanctionCandidate}
    (he : e ∈ entries)
    (hn : normalize cand.name false = normalize e.primary_name false)
    (hnfm : normalizeForMatching cand.normalizedName ≠ [])
    (hth : effectiveThreshold cfg th ≤ 1)
    (hlen : entries.length ≤ cfg.max_results) :
    ∃ m ∈ (screen cfg cand entries th rid).matchList,
      m.sanction_candidate = e ∧ m.score = 1 ∧
      m.score_details.name_score.exact_match = true := by
  rcases @processEntry_exact cfg cand e (effectiveThreshold cfg th) hn hnfm hth with
    ⟨hpe, hcomb, hex⟩
  set m0 : MatchResult :=
    { sanction_candidate := e, matched_name := e.primary_name,
      is_alias_match := false,
      score_details := scoreAgainst cand e e.primary_name } with hm0
  have hmem : m0 ∈ entries.filterMap (processEntry cfg cand (effectiveThreshold cfg th)) :=
    List.mem_filterMap.2 ⟨e, he, hpe⟩
  unfold screen
  simp only
  have hlc : (entries.filterMap (processEntry cfg cand (effectiveThreshold cfg th))).length ≤
      cfg.max_results :=
    le_trans (List.length_filterMap_le _ _) hlen
  have hslen : (sortByScoreDesc (entries.filterMap
      (processEntry cfg cand (effectiveThreshold cfg th)))).length ≤ cfg.max_results := by
    unfold sortByScoreDesc
    rw [length_sortByScoreDesc]
    simpa using hlc
  rw [List.take_of_length_le hslen]
  refine ⟨_, (mem_sortByScoreDesc _ []).2 (Or.inr hmem), rfl, ?_, hex⟩
  exact hcomb

/-- The classification chain of `process_daily_screening`, characterised:
each class holds exactly on its stated condition. -/
theorem diffClass_spec (p c : ℚ) :
    (diffClass p c = DiffClass.isNew ↔ p = 0 ∧ c > 0) ∧
    (diffClass p c = DiffClass.cleared ↔ c = 0 ∧ p > 0) ∧
    (diffClass p c = DiffClass.unchanged ↔ ¬(p = 0 ∧ c > 0) ∧ ¬(c = 0 ∧ p > 0)) := by
  unfold diffClass
  by_cases h1 : c > 0 ∧ p = 0
  · rw [if_pos h1]
    refine ⟨⟨fun _ => ⟨h1.2, h1.1⟩, fun _ => rfl⟩, ⟨(fun h => nomatch h), ?_⟩,
      ⟨(fun h => nomatch h), fun hc => absurd ⟨h1.2, h1.1⟩ hc.1⟩⟩
    intro hc
    exfalso
    have h2 := h1.1
    rw [hc.1] at h2
    exact lt_irrefl 0 h2
  · rw [if_neg h1]
    by_cases h2 : c = 0 ∧ p > 0
    · rw [if_pos h2]
      exact ⟨⟨(fun h => nomatch h), fun hc => absurd ⟨hc.2, hc.1⟩ h1⟩,
        ⟨fun _ => h2, fun _ => rfl⟩,
        ⟨(fun h => nomatch h), fun hc => absurd h2 hc.2⟩⟩
    · rw [if_neg h2]
      exact ⟨⟨(fun h => nomatch h), fun hc => absurd ⟨hc.2, hc.1⟩ h1⟩,
        ⟨(fun h => nomatch h), fun hc => absurd hc h2⟩,
        ⟨fun _ => ⟨fun hc => h1 ⟨hc.2, hc.1⟩, h2⟩, fun _ => rfl⟩⟩

/-- The `isNew` step of the classification loop. -/
theorem diffStep_isNew {prev : List (Str × ℚ)} {acc : DiffAcc} {r : ScreeningResponse}
    (h : diffClass (lookupScore prev r.reference_id) r.highest_score = DiffClass.isNew) :
    diffStep prev acc r = { acc with news := acc.news ++ [r] } := by
  simp [diffStep, h]

/-- The `cleared` step of the classification loop. -/
theorem diffStep_cleared {prev : List (Str × ℚ)} {acc : DiffAcc} {r : ScreeningResponse}
    (h : diffClass (lookupScore prev r.reference_id) r.highest_score = DiffClass.cleared) :
    diffStep prev acc r =
      { acc with clearedRefs := acc.clearedRefs ++
          [(r.reference_id, lookupScore prev r.reference_id)] } := by
  simp [diffStep, h]

/-- The `unchanged` step of the classification loop. -/
theorem diffStep_unchanged {prev : List (Str × ℚ)} {acc : DiffAcc} {r : ScreeningResponse}
    (h : diffClass (lookupScore prev r.reference_id) r.highest_score = DiffClass.unchanged) :
    diffStep prev acc r = { acc with unchangedList := acc.unchangedList ++ [r] } := by
  simp [diffStep, h]

/-- The buckets accumulated by the `process_daily_screening` loop are the
filters of the response list by classification. -/
theorem diffFold_spec (prev : List (Str × ℚ)) :
    ∀ (results : List ScreeningResponse) (acc : DiffAcc),
      (results.foldl (diffStep prev) acc).news =
        acc.news ++ results.filter (fun r =>
          decide (diffClass (lookupScore prev r.reference_id) r.highest_score =
            DiffClass.isNew)) ∧
      (results.foldl (diffStep prev) acc).clearedRefs =
        acc.clearedRefs ++ (results.filter (fun r =>
          decide (diffClass (lookupScore prev r.reference_id) r.highest_score =
            DiffClass.cleared))).map
          (fun r => (r.reference_id, lookupScore prev r.reference_id)) ∧
      (results.foldl (diffStep prev) acc).unchangedList =
        acc.unchangedList ++ results.filter (fun r =>
          decide (diffClass (lookupScore prev r.reference_id) r.highest_score =
            DiffClass.unchanged)) := by
  intro results
  induction results with
  | nil => intro acc; simp
  | cons r rest ih =>
    intro acc
    rw [List.foldl_cons]
    rcases ih (diffStep prev acc r) with ⟨ihn, ihc, ihu⟩
    rcases hdc : diffClass (lookupScore prev r.reference_id) r.highest_score with _ | _ | _
    · rw [ihn, ihc, ihu, diffStep_isNew hdc]
      refine ⟨?_, ?_, ?_⟩ <;>
        simp [List.filter_cons, hdc, List.append_assoc]
    · rw [ihn, ihc, ihu, diffStep_cleared hdc]
      refine ⟨?_, ?_, ?_⟩ <;>
        simp [List.filter_cons, hdc, List.append_assoc]
    · rw [ihn, ihc, ihu, diffStep_unchanged hdc]
      refine ⟨?_, ?_, ?_⟩ <;>
        simp [List.filter_cons, hdc, List.append_assoc]

/-! ### The claims -/

/-- C1 (counterexample): the exactness claim fails as stated.  The query
`!!!` and the entry `???` both normalize to the empty string — the
hypothesis `normalize(q.name) = normalize(e.primary_name)` holds — yet the
screening response contains no `MatchResult` at all, because the quick
filter rejects the pair on the zero-length comparison before full scoring
is reached. -/
theorem C1_counterexample :
    normalize exCandBang.name false = normalize exEntryQm.primary_name false ∧
    (screen defaultMatcher exCandBang [exEntryQm] none "r".toList).matchList = [] := by
  constructor
  · with_unfolding_all decide
  · with_unfolding_all decide

/-- C1 (amended): if `normalize(q.name) = normalize(e.primary_name)` and in
addition the aggressively normalized name is non-empty (so the pre-filter
can pass), the effective threshold is at most 1, and the corpus does not
exceed `max_results`, then the response contains a `MatchResult` for `e`
with `match_score = 1.0` and `exact_match = true`. -/
theorem C1_amended_exactness {cfg : ScreeningMatcher} {cand : ScreeningCandidate}
    {entries : List SanctionCandidate} {th : Option ℚ} {rid : Str}
    {e : SanctionCandidate}
    (he : e ∈ entries)
    (hn : normalize cand.name false = normalize e.primary_name false)
    (hnfm : normalizeForMatching cand.normalizedName ≠ [])
    (hth : effectiveThreshold cfg th ≤ 1)
    (hlen : entries.length ≤ cfg.max_results) :
    ∃ m ∈ (screen cfg cand entries th rid).matchList,
      m.sanction_candidate = e ∧ m.score = 1 ∧
      m.score_details.name_score.exact_match = true :=
  screen_exact_contains he hn hnfm hth hlen

/-- C1 (witness): the amended exactness theorem applied to the concrete
query `abc` against a one-entry corpus with primary name `abc`. -/
theorem C1_amended_exactness_witness :
    ∃ m ∈ (screen defaultMatcher exCand [exEntryA] none "r".toList).matchList,
      m.sanction_candidate = exEntryA ∧ m.score = 1 ∧
      m.score_details.name_score.exact_match = true :=
  C1_amended_exactness (List.mem_singleton_self _)
    (by with_unfolding_all decide)
    (by with_unfolding_all decide)
    (by with_unfolding_all decide)
    (by with_unfolding_all decide)

/-- C2: threshold soundness — every `MatchResult` in a `screen` response has
`combined_score` at least the effective threshold used for that call. -/
theorem C2_threshold_soundness {cfg : ScreeningMatcher} {cand : ScreeningCandidate}
    {entries : List SanctionCandidate} {th : Option ℚ} {rid : Str} {m : MatchResult}
    (h : m ∈ (screen cfg cand entries th rid).matchList) :
    effectiveThreshold cfg th ≤ m.score :=
  screen_threshold_sound h

/-- C2 (witness): threshold soundness applied to a concrete response with
one match. -/
theorem C2_threshold_soundness_witness :
    ∃ m ∈ (screen defaultMatcher exCand [exEntryA] none "r".toList).matchList,
      effectiveThreshold defaultMatcher none ≤ m.score := by
  have hmem : exMatchA ∈ (screen defaultMatcher exCand [exEntryA] none "r".toList).matchList := by
    with_unfolding_all decide
  exact ⟨exMatchA, hmem, C2_threshold_soundness hmem⟩

/-- C3 (counterexample): `normalize` with `keep_prefixes = false` is not
idempotent.  On `al bin x` the first pass drops only the leading `al`,
leaving `bin x`; a second pass drops `bin` as well. -/
theorem C3_counterexample :
    normalize (normalize "al bin x".toList false) false ≠
      normalize "al bin x".toList false := by
  with_unfolding_all decide

/-- C3 (amended): `normalize` with `keep_prefixes = true` is idempotent on
every string; with `keep_prefixes = false` it is idempotent exactly when the
normalized form does not itself begin with another prefix token (the code
drops at most one leading prefix per call). -/
theorem C3_amended_idempotence (x : Str) :
    normalize (normalize x true) true = normalize x true ∧
    (headKept (pySplit (normalize x false)) = true →
      normalize (normalize x false) false = normalize x false) :=
  ⟨normalize_idem_keep x, fun h => normalize_idem_noKeep x h⟩

/-- C3 (witness): the amended idempotence theorem applied to `bob smith`,
whose normalized form starts with no prefix token. -/
theorem C3_amended_idempotence_witness :
    headKept (pySplit (normalize "bob smith".toList false)) = true ∧
    normalize (normalize "bob smith".toList true) true =
      normalize "bob smith".toList true ∧
    normalize (normalize "bob smith".toList false) false =
      normalize "bob smith".toList false := by
  have h : headKept (pySplit (normalize "bob smith".toList false)) = true := by
    with_unfolding_all decide
  exact ⟨h, (C3_amended_idempotence "bob smith".toList).1,
    (C3_amended_idempotence "bob smith".toList).2 h⟩

set_option maxRecDepth 4000 in
/-- C4 (counterexample): ties are not broken by `(list_code, source_id)`
ascending.  Screening `abc` against a corpus holding the `B`-list entry
(id 2) before the `A`-list entry (id 1), both exact matches with combined
score 1, returns them in corpus order `B` before `A`, although `A < B`. -/
theorem C4_counterexample :
    ((screen defaultMatcher exCand [exEntryB, exEntryA] none "r".toList).matchList.map
      (fun m => (m.sanction_candidate.list_code, m.sanction_candidate.id))) =
      [("B".toList, 2), ("A".toList, 1)] ∧
    ((screen defaultMatcher exCand [exEntryB, exEntryA] none "r".toList).matchList.map
      (fun m => m.score)) = [1, 1] ∧
    strLt "A".toList "B".toList = true := by
  refine ⟨?_, ?_, ?_⟩
  · with_unfolding_all decide
  · with_unfolding_all decide
  · with_unfolding_all decide

/-- C4 (amended): the matches of every `screen` response are sorted by
`combined_score` descending; the sort is stable, so equal scores keep the
corpus iteration order rather than any `(list_code, source_id)` order. -/
theorem C4_amended_sortedness (cfg : ScreeningMatcher) (cand : ScreeningCandidate)
    (entries : List SanctionCandidate) (th : Option ℚ) (rid : Str) :
    ((screen cfg cand entries th rid).matchList).Pairwise
      (fun a b => b.score ≤ a.score) :=
  screen_sorted cfg cand entries th rid

set_option maxRecDepth 8000 in
/-- C5 (counterexample): `generate_variations` enforces no cap of 32.  A
seven-token name each of whose tokens has five enumerated variants yields
37 distinct variations. -/
theorem C5_counterexample : 32 < (generateVariations exName7).length := by
  with_unfolding_all decide

/-- C5 (amended): `generate_variations` deduplicates (set semantics: the
returned collection is duplicate-free), but the code enforces no bound of
32; the variant count grows with the number of mapped tokens. -/
theorem C5_amended_variations (name : Str) :
    (generateVariations name).Nodup :=
  nodup_generateVariations name

/-- C6: the augmented score composes exactly as specified —
`combined_score = min(1, name_overall + Σ applicable boosts)` with the
documented constants, a missing attribute on either side never boosts, and
enabling more attribute matches never decreases `combined_score`. -/
theorem C6_boost_composition (qn tn : Str)
    (qd td qna tna qi ti qd2 td2 qna2 tna2 qi2 ti2 : Option Str) :
    DOB_BOOST = 3 / 20 ∧ NATIONALITY_BOOST = 1 / 20 ∧ ID_BOOST = 1 / 5 ∧
    (enhancedScore qn tn qd td qna tna qi ti).combined_score =
      min 1 ((enhancedScore qn tn qd td qna tna qi ti).name_score.overall_score +
        ((if (enhancedScore qn tn qd td qna tna qi ti).dob_match then DOB_BOOST else 0) +
         (if (enhancedScore qn tn qd td qna tna qi ti).nationality_match then
            NATIONALITY_BOOST else 0) +
         (if (enhancedScore qn tn qd td qna tna qi ti).id_match then ID_BOOST else 0))) ∧
    (strFalsy qd = true ∨ strFalsy td = true →
      (enhancedScore qn tn qd td qna tna qi ti).dob_match = false) ∧
    (strFalsy qna = true ∨ strFalsy tna = true →
      (enhancedScore qn tn qd td qna tna qi ti).nationality_match = false) ∧
    (strFalsy qi = true ∨ strFalsy ti = true →
      (enhancedScore qn tn qd td qna tna qi ti).id_match = false) ∧
    (((enhancedScore qn tn qd td qna tna qi ti).dob_match = true →
        (enhancedScore qn tn qd2 td2 qna2 tna2 qi2 ti2).dob_match = true) →
     ((enhancedScore qn tn qd td qna tna qi ti).nationality_match = true →
        (enhancedScore qn tn qd2 td2 qna2 tna2 qi2 ti2).nationality_match = true) →
     ((enhancedScore qn tn qd td qna tna qi ti).id_match = true →
        (enhancedScore qn tn qd2 td2 qna2 tna2 qi2 ti2).id_match = true) →
     (enhancedScore qn tn qd td qna tna qi ti).combined_score ≤
       (enhancedScore qn tn qd2 td2 qna2 tna2 qi2 ti2).combined_score) := by
  refine ⟨rfl, rfl, rfl, enh_combined_eq qn tn qd td qna tna qi ti,
    fun h => enh_dob_missing h, fun h => enh_nat_missing h, fun h => enh_id_missing h,
    ?_⟩
  intro hd hn hi
  rw [enh_combined_eq qn tn qd td qna tna qi ti,
    enh_combined_eq qn tn qd2 td2 qna2 tna2 qi2 ti2]
  have hname : (enhancedScore qn tn qd2 td2 qna2 tna2 qi2 ti2).name_score =
      (enhancedScore qn tn qd td qna tna qi ti).name_score := rfl
  rw [hname]
  apply min_le_min (le_refl 1)
  apply add_le_add_left
  have hmono : ∀ (b b2 : Bool) (k : ℚ), 0 ≤ k → (b = true → b2 = true) →
      (if b then k else 0) ≤ (if b2 then k else 0) := by
    intro b b2 k hk himp
    cases b
    · cases b2 <;> simp [hk]
    · rw [himp rfl]
  exact add_le_add (add_le_add (hmono _ _ _ DOB_BOOST_nonneg hd)
    (hmono _ _ _ NATIONALITY_BOOST_nonneg hn)) (hmono _ _ _ ID_BOOST_nonneg hi)

/-- C6 (witness): the boost composition theorem at concrete inputs — adding
a matching date of birth does not decrease the combined score. -/
theorem C6_boost_composition_witness :
    (enhancedScore "abc".toList "abc".toList none none none none none none).combined_score ≤
      (enhancedScore "abc".toList "abc".toList (some "1999-01-02".toList)
        (some "2.1.1999".toList) none none none none).combined_score :=
  (C6_boost_composition "abc".toList "abc".toList none none none none none none
      (some "1999-01-02".toList) (some "2.1.1999".toList) none none none
      none).2.2.2.2.2.2.2
    (by with_unfolding_all decide)
    (by with_unfolding_all decide)
    (by with_unfolding_all decide)

/-- C7 (counterexample): `MatchScorer.__init__` does not reject weights
whose sum differs from 1: a weight table summing to 5 is accepted verbatim,
with no configuration error of any kind. -/
theorem C7_counterexample :
    (MatchScorer.mkScorer (some ⟨1, 1, 1, 1, 1⟩)).weights = ⟨1, 1, 1, 1, 1⟩ ∧
    (AlgorithmWeights.total ⟨1, 1, 1, 1, 1⟩ - 1 > 1 / 1000000) := by
  constructor
  · rfl
  · with_unfolding_all decide

/-- C7 (amended): the constructor performs no validation at all — any
provided weight table is stored as given, and a missing (falsy) table is
replaced by the defaults. -/
theorem C7_amended_no_validation (w : AlgorithmWeights) :
    (MatchScorer.mkScorer (some w)).weights = w ∧
    (MatchScorer.mkScorer none).weights = DEFAULT_WEIGHTS :=
  ⟨rfl, rfl⟩

/-- C8: daily-diff classification — the buckets of
`process_daily_screening` are exactly the responses classified `new`
(prior 0, current positive), `cleared` (prior positive, current 0) and
`unchanged` (everything else), with the prior score defaulting to 0, and
for every pair of scores exactly one of the three classes holds. -/
theorem C8_diff_classification (cfg : ScreeningMatcher)
    (entities : List ScreeningCandidate) (entries : List SanctionCandidate)
    (prev : List (Str × ℚ)) (batchId : Str) :
    (processDailyScreening cfg entities entries prev batchId).new_matches =
      (screenBulk cfg entities entries none batchId).filter (fun r =>
        decide (diffClass (lookupScore prev r.reference_id) r.highest_score =
          DiffClass.isNew)) ∧
    (processDailyScreening cfg entities entries prev batchId).cleared_matches =
      ((screenBulk cfg entities entries none batchId).filter (fun r =>
        decide (diffClass (lookupScore prev r.reference_id) r.highest_score =
          DiffClass.cleared))).map
        (fun r => (r.reference_id, lookupScore prev r.reference_id)) ∧
    (processDailyScreening cfg entities entries prev batchId).unchanged_count =
      ((screenBulk cfg entities entries none batchId).filter (fun r =>
        decide (diffClass (lookupScore prev r.reference_id) r.highest_score =
          DiffClass.unchanged))).length ∧
    (∀ p c : ℚ,
      (diffClass p c = DiffClass.isNew ↔ p = 0 ∧ c > 0) ∧
      (diffClass p c = DiffClass.cleared ↔ c = 0 ∧ p > 0) ∧
      (diffClass p c = DiffClass.unchanged ↔
        ¬(p = 0 ∧ c > 0) ∧ ¬(c = 0 ∧ p > 0))) ∧
    (∀ p c : ℚ,
      (diffClass p c = DiffClass.isNew ∧ diffClass p c ≠ DiffClass.cleared ∧
        diffClass p c ≠ DiffClass.unchanged) ∨
      (diffClass p c ≠ DiffClass.isNew ∧ diffClass p c = DiffClass.cleared ∧
        diffClass p c ≠ DiffClass.unchanged) ∨
      (diffClass p c ≠ DiffClass.isNew ∧ diffClass p c ≠ DiffClass.cleared ∧
        diffClass p c = DiffClass.unchanged)) := by
  rcases diffFold_spec prev (screenBulk cfg entities entries none batchId)
    ⟨[], [], []⟩ with ⟨hn, hc, hu⟩
  refine ⟨?_, ?_, ?_, fun p c => diffClass_spec p c, ?_⟩
  · show (List.foldl (diffStep prev) ⟨[], [], []⟩
      (screenBulk cfg entities entries none batchId)).news = _
    rw [hn]
    rfl
  · show (List.foldl (diffStep prev) ⟨[], [], []⟩
      (screenBulk cfg entities entries none batchId)).clearedRefs = _
    rw [hc]
    rfl
  · show (List.foldl (diffStep prev) ⟨[], [], []⟩
      (screenBulk cfg entities entries none batchId)).unchangedList.length = _
    rw [hu]
    rfl
  · intro p c
    rcases h : diffClass p c with _ | _ | _
    · exact Or.inl ⟨rfl, (fun h2 => nomatch h2), (fun h2 => nomatch h2)⟩
    · exact Or.inr (Or.inl ⟨(fun h2 => nomatch h2), rfl, (fun h2 => nomatch h2)⟩)
    · exact Or.inr (Or.inr ⟨(fun h2 => nomatch h2), (fun h2 => nomatch h2), rfl⟩)

/-- C9: two names that both normalize to the empty string (for example,
punctuation-only names) are scored by the exact short-circuit: every
component is 1.0, `exact_match = true`, `algorithm_used = "exact"`. -/
theorem C9_empty_normalization_exact {q t : Str}
    (hq : normalize q false = []) (ht : normalize t false = []) :
    (MatchScorer.mkScorer none).score q t true =
      { overall_score := 1, jaro_winkler := 1, levenshtein := 1, token_sort := 1,
        token_set := 1, phonetic := 1, exact_match := true,
        algorithm_used := "exact".toList } := by
  apply @score_exact_of_lower_eq _ _ _ true
  simp only [if_true, hq, ht]

/-- C9 (witness): the empty-normalization rule applied to the punctuation
names `!!!` and `??`. -/
theorem C9_empty_normalization_exact_witness :
    (MatchScorer.mkScorer none).score "!!!".toList "??".toList true =
      { overall_score := 1, jaro_winkler := 1, levenshtein := 1, token_sort := 1,
        token_set := 1, phonetic := 1, exact_match := true,
        algorithm_used := "exact".toList } :=
  C9_empty_normalization_exact (by with_unfolding_all decide)
    (by with_unfolding_all decide)

/-- C10: a threshold of 0.0 is falsy in the `threshold or default` idiom, so
screening with threshold 0.0 is identical to screening with no threshold:
the default 0.75 is used and a zero threshold never admits every
candidate. -/
theorem C10_zero_threshold_default :
    (∀ (cfg : ScreeningMatcher) (cand : ScreeningCandidate)
      (entries : List SanctionCandidate) (rid : Str),
      screen cfg cand entries (some 0) rid = screen cfg cand entries none rid) ∧
    effectiveThreshold defaultMatcher (some 0) = 3 / 4 ∧
    effectiveThreshold defaultMatcher none = 3 / 4 := by
  have heff : ∀ cfg : ScreeningMatcher,
      effectiveThreshold cfg (some 0) = effectiveThreshold cfg none := by
    intro cfg
    show (if (0 : ℚ) = 0 then cfg.default_threshold else (0 : ℚ)) = cfg.default_threshold
    rw [if_pos rfl]
  refine ⟨?_, ?_, rfl⟩
  · intro cfg cand entries rid
    unfold screen
    rw [heff cfg]
  · rw [heff defaultMatcher]
    rfl

end ArabiaSanctions
